import Mathlib

/-!
Verification development for the Gemini DB agent (`agent_api.py`,
`read_db.py`, `mcp_server.py`).

Strings are modelled as `List Char`.  Python string primitives used by the
code (`str.lower`, `str.rstrip`, `str.strip`, substring containment,
`str.startswith`) are embedded character by character below.  The embedding
is ASCII-faithful: the reserved identifiers, the `LIMIT` clause and the
`select` keyword that the code manipulates are all ASCII, so the ASCII
case-folding of `lowerChar` coincides with Python's `str.lower` on every
string the gate treats specially.
-/

namespace AgentApi

/-- ASCII lower-casing, the relevant fragment of Python `str.lower`. -/
def lowerChar (c : Char) : Char :=
  if 65 ≤ c.toNat ∧ c.toNat ≤ 90 then Char.ofNat (c.toNat + 32) else c

/-- Lower-case a whole string (`sql.lower()`). -/
def toLowerList (s : List Char) : List Char := s.map lowerChar

/-- Python regex word character `\w` (ASCII fragment): letters, digits, underscore. -/
def isWordChar (c : Char) : Bool :=
  (65 ≤ c.toNat && c.toNat ≤ 90) || (97 ≤ c.toNat && c.toNat ≤ 122) ||
    (48 ≤ c.toNat && c.toNat ≤ 57) || c == '_'

/-- Whitespace as stripped by Python `str.strip`/`str.rstrip` (ASCII fragment):
space, tab, newline, vertical tab, form feed, carriage return. -/
def isSpaceChar (c : Char) : Bool :=
  c.toNat == 32 || (9 ≤ c.toNat && c.toNat ≤ 13)

/-- Boolean prefix test on character lists (`str.startswith`). -/
def lpre : List Char → List Char → Bool
  | [], _ => true
  | _ :: _, [] => false
  | a :: as, b :: bs => a == b && lpre as bs

/-- Boolean substring test (Python `needle in haystack`). -/
def hasSub (p : List Char) : List Char → Bool
  | [] => p.isEmpty
  | c :: rest => lpre p (c :: rest) || hasSub p rest

/-- Remove the longest suffix of characters satisfying `p`. -/
def dropTrailWhile (p : Char → Bool) (s : List Char) : List Char :=
  (s.reverse.dropWhile p).reverse

/-- Python `s.rstrip()`. -/
def pyRstrip (s : List Char) : List Char := dropTrailWhile isSpaceChar s

/-- Python `s.rstrip(';')`: removes every trailing semicolon. -/
def pyRstripSemi (s : List Char) : List Char := dropTrailWhile (fun c => c == ';') s

/-- Python `s.lstrip()`. -/
def pyLstrip (s : List Char) : List Char := s.dropWhile isSpaceChar

/-- Python `s.strip()`. -/
def pyStrip (s : List Char) : List Char := pyRstrip (pyLstrip s)

/-- The text ` LIMIT {limit}` appended by `ensure_limit` (decimal rendering of
the cap, as Python f-string interpolation of an `int`). -/
def limitClause (limit : Nat) : List Char :=
  " LIMIT ".toList ++ Nat.toDigits 10 limit

/-- `ensure_limit` from `agent_api.py`:
if the lowered SQL contains the substring `limit` return it unchanged,
otherwise append ` LIMIT {limit}` after `sql.rstrip().rstrip(';')`. -/
def ensure_limit (sql : List Char) (limit : Nat) : List Char :=
  if hasSub ("limit".toList) (toLowerList sql) then sql
  else pyRstripSemi (pyRstrip sql) ++ limitClause limit

/-- The read-only check of `enforce_select_only`:
`sql.strip().lower().startswith("select")`. -/
def selectCheck (sql : List Char) : Bool :=
  lpre ("select".toList) (toLowerList (pyStrip sql))

/-- HTTP error raised by the service layer (`fastapi.HTTPException`):
a status code and a detail message. -/
structure HTTPError where
  status : Nat
  detail : List Char
deriving DecidableEq, Repr

/-- Detail text of the safety rejection. -/
def selectOnlyMsg : List Char := "Only SELECT statements are allowed.".toList

/-- `enforce_select_only` from `agent_api.py`: raise a 400 error unless the
trimmed, lowered statement starts with `select`. -/
def enforce_select_only (sql : List Char) : Except HTTPError Unit :=
  if selectCheck sql then .ok () else .error ⟨400, selectOnlyMsg⟩

/-! ## The reserved-identifier quoting step

`quote_reserved_tables` runs, for every table of the schema whose lowered
name is `case` or `order`, the substitution
`re.sub(r'(?<!")\b{table}\b(?!")', f'"{table}"', sql)`.
The pattern is a literal occurrence of the table name (the names reaching the
substitution are alphabetic, so `re.escape` is the identity), bracketed by
word boundaries and by negative lookbehind/lookahead for a double quote.
The scan below mirrors `re.sub`: it walks the string left to right, keeping
the character preceding the current position (`prev`, a character of the
original string), wraps each match in double quotes, and resumes after the
matched text. -/

/-- Word-character status of an optional character; `none` stands for the
edge of the string, which is never a word character. -/
def isWordOpt : Option Char → Bool
  | none => false
  | some c => isWordChar c

/-- A regex word boundary `\b` sits between two positions iff exactly one of
the adjacent characters is a word character. -/
def wordBoundary (a b : Option Char) : Bool := isWordOpt a != isWordOpt b

/-- Does the pattern `(?<!")\b t \b(?!")` match at the start of `s`, where
`prev` is the character just before `s` in the scanned string? -/
def canMatch (t : List Char) (prev : Option Char) (s : List Char) : Bool :=
  !t.isEmpty && lpre t s &&
  wordBoundary prev t.head? &&
  wordBoundary t.getLast? (s.drop t.length).head? &&
  prev != some '"' && (s.drop t.length).head? != some '"'

/-- Fueled scanner for the substitution; `fuel ≥ s.length` always holds at the
call sites, the fuel only makes the recursion structural. -/
def qsF (t : List Char) : Nat → Option Char → List Char → List Char
  | _, _, [] => []
  | 0, _, s => s
  | fuel+1, prev, c :: rest =>
    if canMatch t prev (c :: rest) then
      '"' :: (t ++ '"' :: qsF t fuel t.getLast? (List.drop (t.length - 1) rest))
    else c :: qsF t fuel (some c) rest

/-- One `re.sub(r'(?<!")\b t \b(?!")', '"t"', s)` pass, scanning with `prev`
as the character preceding `s`. -/
def quoteScan (t : List Char) (prev : Option Char) (s : List Char) : List Char :=
  qsF t s.length prev s

/-- A schema mapping: ordered association of table names to column names,
as produced by `describe_schema`. -/
abbrev SchemaMap := List (List Char × List (List Char))

/-- The reserved-word set of `quote_reserved_tables`. -/
def reservedNames : List (List Char) := ["case".toList, "order".toList]

/-- `quote_reserved_tables` from `agent_api.py`: for each table of the schema
(in order) whose lowered name is reserved, run the quoting substitution. -/
def quote_reserved_tables (sql : List Char) (tables : SchemaMap) : List Char :=
  tables.foldl
    (fun acc tb =>
      if reservedNames.contains (toLowerList tb.1) then quoteScan tb.1 none acc
      else acc)
    sql

/-! ## Generator adapter, executor and endpoint pipeline

The Gemini call and `json.loads` are external collaborators.  `GenReply`
abstracts the outcome of parsing the generator's reply text exactly as the
code distinguishes it: a `JSONDecodeError` (`invalid`, carrying the raw
text), or a parsed object from which `payload.get("sql")` and
`payload.get("reasoning")` are read; a missing or non-string-falsy `sql`
field is `none`/the empty string. -/

inductive GenReply where
  | invalid (raw : List Char)
  | valid (sqlField : Option (List Char)) (reasoning : Option (List Char))

/-- Detail prefix of the 502 error for non-JSON generator output. -/
def nonJsonMsg (raw : List Char) : List Char :=
  "Gemini returned non-JSON content: ".toList ++ raw

/-- Detail of the 502 error for a missing or empty `sql` field. -/
def noSqlMsg : List Char := "Gemini did not return SQL.".toList

/-- `GeminiSQLAgent.build_sql` from `agent_api.py`, parameterised by the
generator's reply: parse failure and missing/empty `sql` raise 502; otherwise
the candidate SQL passes `ensure_limit`, `quote_reserved_tables` and
`enforce_select_only` in that order, returning the final SQL and the
reasoning. -/
def build_sql (reply : GenReply) (maxRows : Nat) (tables : SchemaMap) :
    Except HTTPError (List Char × Option (List Char)) :=
  match reply with
  | .invalid raw => .error ⟨502, nonJsonMsg raw⟩
  | .valid sqlField reasoning =>
    match sqlField with
    | none => .error ⟨502, noSqlMsg⟩
    | some sql =>
      if sql.isEmpty then .error ⟨502, noSqlMsg⟩
      else
        let sql1 := ensure_limit sql maxRows
        let sql2 := quote_reserved_tables sql1 tables
        match enforce_select_only sql2 with
        | .error e => .error e
        | .ok _ => .ok (sql2, reasoning)

/-- Outcome of handing a statement to the SQLite driver (an external
collaborator): either a successful cursor with the result column names of
`cursor.description` and the raw tuples of `fetchall`, or a raised
`sqlite3.Error` with its message. -/
inductive SqliteOutcome (V : Type) where
  | ok (cols : List (List Char)) (rows : List (List V))
  | err (msg : List Char)

/-- Python `dict` insertion: an existing key is updated in place, a new key
is appended. -/
def pyDictInsert {V : Type} (m : List (List Char × V)) (k : List Char) (v : V) :
    List (List Char × V) :=
  if m.any (fun p => p.1 == k) then
    m.map (fun p => if p.1 == k then (k, v) else p)
  else m ++ [(k, v)]

/-- Python `dict(pairs)`: left-to-right insertion. -/
def pyDict {V : Type} (pairs : List (List Char × V)) : List (List Char × V) :=
  pairs.foldl (fun m p => pyDictInsert m p.1 p.2) []

/-- Python `dict` lookup on the association lists built by `pyDict`. -/
def pyGet {V : Type} (m : List (List Char × V)) (k : List Char) : Option V :=
  match m.find? (fun p => p.1 == k) with
  | some p => some p.2
  | none => none

/-- `GeminiSQLAgent.run_sql` from `agent_api.py`, parameterised by the
database driver `exec` acting on an abstract database state: a successful
execution returns `columns` and each row as `dict(zip(columns, row))`; a
`sqlite3.Error` is re-raised as a 400 error carrying the driver's message. -/
def run_sql {V D : Type} (exec : D → List Char → SqliteOutcome V × D)
    (db : D) (sql : List Char) :
    Except HTTPError (List (List Char) × List (List (List Char × V))) × D :=
  match exec db sql with
  | (.ok cols rows, db') =>
    (.ok (cols, rows.map (fun row => pyDict (cols.zip row))), db')
  | (.err msg, db') => (.error ⟨400, msg⟩, db')

/-- The payload of a successful `/query` call (`QueryResponse`). -/
structure QueryResponse (V : Type) where
  sql : List Char
  rows : List (List (List Char × V))
  columns : List (List Char)
  reasoning : Option (List Char)

/-- `GeminiSQLAgent.answer`: build the SQL from the generator reply, then run
it; an error in either stage propagates and, when `build_sql` fails, the
database driver is never invoked. -/
def answer {V D : Type} (exec : D → List Char → SqliteOutcome V × D) (db : D)
    (reply : GenReply) (maxRows : Nat) (tables : SchemaMap) :
    Except HTTPError (QueryResponse V) × D :=
  match build_sql reply maxRows tables with
  | .error e => (.error e, db)
  | .ok (sql, reasoning) =>
    match run_sql exec db sql with
    | (.error e, db') => (.error e, db')
    | (.ok (cols, rows), db') => (.ok ⟨sql, rows, cols, reasoning⟩, db')

/-! ## Lazy agent singleton and the schema endpoint -/

/-- The process environment as read by `agent_api.py`: the optional
`GEMINI_API_KEY`, and the catalog contents that `describe_schema` would
introspect from the database file. -/
structure Env where
  geminiApiKey : Option (List Char)
  catalog : SchemaMap

/-- Message of the fatal configuration error. -/
def missingKeyMsg : List Char :=
  "Missing GEMINI_API_KEY. Set an API key before starting the server.".toList

/-- `configure_gemini`: raise when `GEMINI_API_KEY` is falsy, i.e. unset or
the empty string (Python `if not api_key`). -/
def configure_gemini (env : Env) : Except (List Char) Unit :=
  match env.geminiApiKey with
  | none => .error missingKeyMsg
  | some k => if k.isEmpty then .error missingKeyMsg else .ok ()

/-- The constructed agent state (`GeminiSQLAgent`): the schema read at
construction time.  The Gemini model handle carries no observable state. -/
structure Agent where
  schema : SchemaMap

/-- `GeminiSQLAgent.__init__`: configure Gemini (fatal without the key), then
introspect the schema. -/
def agentInit (env : Env) : Except (List Char) Agent :=
  match configure_gemini env with
  | .error e => .error e
  | .ok _ => .ok ⟨env.catalog⟩

/-- `get_agent` with its `lru_cache`: the memo cell is the process state; a
raised constructor exception is not cached. -/
def get_agent (env : Env) (cache : Option Agent) :
    Except (List Char) (Agent × Option Agent) :=
  match cache with
  | some a => .ok (a, some a)
  | none =>
    match agentInit env with
    | .error e => .error e
    | .ok a => .ok (a, some a)

/-- The `/schema` endpoint (`get_schema`): returns `get_agent().schema`. -/
def get_schema (env : Env) (cache : Option Agent) :
    Except (List Char) SchemaMap × Option Agent :=
  match get_agent env cache with
  | .error e => (.error e, cache)
  | .ok (a, cache') => (.ok a.schema, cache')

/-! ## The two orders of the gate, for the refinement claim -/

/-- The Safety Gate as the code composes it (`build_sql` lines 132-134):
row cap first, then reserved-identifier quoting, then the read-only check. -/
def gate_code (sql : List Char) (tables : SchemaMap) (maxRows : Nat) :
    Except HTTPError (List Char) :=
  let s1 := ensure_limit sql maxRows
  let s2 := quote_reserved_tables s1 tables
  match enforce_select_only s2 with
  | .error e => .error e
  | .ok _ => .ok s2

/-- The Safety Gate in the fixed order the specification states (section 4.2):
reserved-identifier quoting first, then the row cap, then the read-only
check.  This definition follows the specification's words and is compared
with `gate_code`. -/
def gate_spec (sql : List Char) (tables : SchemaMap) (maxRows : Nat) :
    Except HTTPError (List Char) :=
  let s1 := quote_reserved_tables sql tables
  let s2 := ensure_limit s1 maxRows
  match enforce_select_only s2 with
  | .error e => .error e
  | .ok _ => .ok s2

/-! ## Declarative occurrence scan

`hasOcc t prev s` says whether the pattern `(?<!")\b t \b(?!")` matches
anywhere in `s`, scanning with the true preceding character, i.e. whether
`s` contains a whole-word, not-already-quoted occurrence of `t`. -/

def hasOcc (t : List Char) (prev : Option Char) : List Char → Bool
  | [] => false
  | c :: rest => canMatch t prev (c :: rest) || hasOcc t (some c) rest

/-! ## Basic lemmas about the scanner and the string primitives -/

theorem qsF_nil (t : List Char) (f : Nat) (prev : Option Char) :
    qsF t f prev [] = [] := by
  cases f <;> rfl

theorem qsF_high (t : List Char) :
    ∀ (f₁ : Nat) (f₂ : Nat) (prev : Option Char) (s : List Char),
      s.length ≤ f₁ → s.length ≤ f₂ → qsF t f₁ prev s = qsF t f₂ prev s := by
  intro f₁
  induction f₁ with
  | zero =>
    intro f₂ prev s h₁ _
    have : s = [] := List.length_eq_zero.mp (Nat.le_zero.mp h₁)
    subst this
    simp [qsF_nil]
  | succ f ih =>
    intro f₂ prev s h₁ h₂
    cases s with
    | nil => simp [qsF_nil]
    | cons c rest =>
      cases f₂ with
      | zero => simp at h₂
      | succ f' =>
        simp only [qsF]
        have hr : rest.length ≤ f := by simp at h₁; omega
        have hr' : rest.length ≤ f' := by simp at h₂; omega
        have hd : (List.drop (t.length - 1) rest).length ≤ rest.length := by
          simp [List.length_drop]
        by_cases hm : canMatch t prev (c :: rest) = true
        · rw [if_pos hm, if_pos hm, ih f' _ _ (le_trans hd hr) (le_trans hd hr')]
        · rw [if_neg hm, if_neg hm, ih f' _ _ hr hr']

theorem quoteScan_nil (t : List Char) (prev : Option Char) :
    quoteScan t prev [] = [] := rfl

theorem quoteScan_cons (t : List Char) (prev : Option Char) (c : Char)
    (rest : List Char) :
    quoteScan t prev (c :: rest) =
      if canMatch t prev (c :: rest) then
        '"' :: (t ++ '"' :: quoteScan t t.getLast? (List.drop (t.length - 1) rest))
      else c :: quoteScan t (some c) rest := by
  show qsF t (rest.length + 1) prev (c :: rest) = _
  simp only [qsF, quoteScan]
  have hd : (List.drop (t.length - 1) rest).length ≤ rest.length := by
    simp [List.length_drop]
  by_cases hm : canMatch t prev (c :: rest) = true
  · rw [if_pos hm, if_pos hm, qsF_high t rest.length _ _ _ hd (le_refl _)]
  · rw [if_neg hm, if_neg hm]

/-! Character-class lemmas.  The only nontrivial fact is that an upper-case
letter is a word character; everything else about concrete characters is
decided. -/

theorem isWordChar_of_lower (c : Char) (h : isWordChar (lowerChar c) = true) :
    isWordChar c = true := by
  unfold lowerChar at h
  by_cases hr : 65 ≤ c.toNat ∧ c.toNat ≤ 90
  · simp [isWordChar]
    omega
  · rw [if_neg hr] at h
    exact h

theorem ne_of_lowerChar_ne (c x : Char) (h : lowerChar c ≠ lowerChar x) :
    c ≠ x := fun e => h (by rw [e])

theorem not_space_of_lower (c : Char)
    (h : isSpaceChar (lowerChar c) = false) : isSpaceChar c = false := by
  unfold lowerChar at h
  by_cases hr : 65 ≤ c.toNat ∧ c.toNat ≤ 90
  · simp [isSpaceChar]
    omega
  · rw [if_neg hr] at h
    exact h

/-! Prefix-test lemmas. -/

theorem lpre_nil (s : List Char) : lpre [] s = true := by cases s <;> rfl

theorem lpre_cons (a : Char) (as : List Char) (b : Char) (bs : List Char) :
    lpre (a :: as) (b :: bs) = (a == b && lpre as bs) := rfl

theorem lpre_append_self : ∀ (P z : List Char), lpre P (P ++ z) = true := by
  intro P
  induction P with
  | nil => intro z; exact lpre_nil z
  | cons a as ih => intro z; simp [lpre_cons, ih]

theorem lpre_eq_append : ∀ (P s : List Char), lpre P s = true → s = P ++ s.drop P.length := by
  intro P
  induction P with
  | nil => intro s _; simp
  | cons a as ih =>
    intro s h
    cases s with
    | nil => simp [lpre] at h
    | cons b bs =>
      rw [lpre_cons] at h
      have hab : a = b := by
        have := (Bool.and_eq_true _ _).mp h
        exact beq_iff_eq.mp this.1
      have htl := ((Bool.and_eq_true _ _).mp h).2
      subst hab
      simpa using ih bs htl

theorem lpre_length : ∀ (P s : List Char), lpre P s = true → P.length ≤ s.length := by
  intro P s h
  have := lpre_eq_append P s h
  have : s.length = P.length + (s.drop P.length).length := by
    conv_lhs => rw [this]
    simp
  omega

theorem lpre_extend (P A B : List Char) (h : lpre P A = true) :
    lpre P (A ++ B) = true := by
  have hA := lpre_eq_append P A h
  rw [hA, List.append_assoc]
  exact lpre_append_self P _

/-! Substring-test lemmas. -/

theorem hasSub_cons (p : List Char) (c : Char) (rest : List Char) :
    hasSub p (c :: rest) = (lpre p (c :: rest) || hasSub p rest) := rfl

theorem hasSub_nil_pat (s : List Char) : hasSub [] s = true := by
  cases s <;> simp [hasSub, lpre_nil]

theorem hasSub_extend_left (p : List Char) :
    ∀ (A B : List Char), hasSub p B = true → hasSub p (A ++ B) = true := by
  intro A
  induction A with
  | nil => intro B h; simpa using h
  | cons a as ih =>
    intro B h
    rw [List.cons_append, hasSub_cons, ih B h, Bool.or_true]

theorem hasSub_extend_right (p : List Char) :
    ∀ (A B : List Char), hasSub p A = true → hasSub p (A ++ B) = true := by
  intro A
  induction A with
  | nil =>
    intro B h
    simp [hasSub] at h
    subst h
    exact hasSub_nil_pat B
  | cons a as ih =>
    intro B h
    rw [hasSub_cons] at h
    rw [List.cons_append, hasSub_cons, ← List.cons_append]
    rcases Bool.or_eq_true _ _ |>.mp h with h' | h'
    · rw [lpre_extend _ _ _ h', Bool.true_or]
    · rw [ih B h', Bool.or_true]

/-! ## Lemmas about the match predicate and the occurrence scan -/

theorem canMatch_iff (t : List Char) (prev : Option Char) (s : List Char) :
    canMatch t prev s = true ↔
      (t.isEmpty = false ∧ lpre t s = true ∧
       wordBoundary prev t.head? = true ∧
       wordBoundary t.getLast? ((s.drop t.length).head?) = true ∧
       prev ≠ some '"' ∧ (s.drop t.length).head? ≠ some '"') := by
  simp [canMatch, Bool.and_eq_true, bne_iff_ne]
  tauto

theorem canMatch_false_head (t : List Char) (prev : Option Char) (c : Char)
    (rest : List Char) (h : t.head? ≠ some c) :
    canMatch t prev (c :: rest) = false := by
  cases t with
  | nil => rfl
  | cons a as =>
    apply Bool.eq_false_iff.mpr
    intro hc
    rcases (canMatch_iff _ _ _).mp hc with ⟨_, hl, _⟩
    rw [lpre_cons] at hl
    have : a = c := beq_iff_eq.mp ((Bool.and_eq_true _ _).mp hl).1
    exact h (by simp [this])

theorem canMatch_false_quote_prev (t : List Char) (s : List Char) :
    canMatch t (some '"') s = false := by
  apply Bool.eq_false_iff.mpr
  intro hc
  exact ((canMatch_iff _ _ _).mp hc).2.2.2.2.1 rfl

theorem canMatch_false_word_prev (t : List Char) (p : Char) (s : List Char)
    (hp : isWordChar p = true) (ht : isWordOpt t.head? = true) :
    canMatch t (some p) s = false := by
  apply Bool.eq_false_iff.mpr
  intro hc
  have hb := ((canMatch_iff _ _ _).mp hc).2.2.1
  rw [wordBoundary, isWordOpt, hp, ht] at hb
  simp at hb

/-- The character preceding the continuation after consuming `p`, when the
scan entered with `prev`. -/
def lastOpt (p : List Char) (prev : Option Char) : Option Char :=
  match p.getLast? with
  | some c => some c
  | none => prev

theorem lastOpt_nil (prev : Option Char) : lastOpt [] prev = prev := rfl

theorem getLast?_cons_ne_none (b : Char) :
    ∀ (bs : List Char), (b :: bs).getLast? ≠ none := by
  intro bs
  induction bs generalizing b with
  | nil => simp
  | cons c cs ih => rw [List.getLast?_cons_cons]; exact ih c

theorem lastOpt_cons (a : Char) (as : List Char) (prev : Option Char) :
    lastOpt (a :: as) prev = lastOpt as (some a) := by
  cases as with
  | nil => rfl
  | cons b bs =>
    rw [lastOpt, lastOpt, List.getLast?_cons_cons]
    cases h : (b :: bs).getLast? with
    | none => exact absurd h (getLast?_cons_ne_none b bs)
    | some x => rfl

theorem hasOcc_nil (t : List Char) (prev : Option Char) :
    hasOcc t prev [] = false := rfl

theorem hasOcc_cons (t : List Char) (prev : Option Char) (c : Char)
    (rest : List Char) :
    hasOcc t prev (c :: rest) =
      (canMatch t prev (c :: rest) || hasOcc t (some c) rest) := rfl

theorem hasOcc_congr_first (t : List Char) (p₁ p₂ : Option Char)
    (s : List Char) (h : canMatch t p₁ s = canMatch t p₂ s) :
    hasOcc t p₁ s = hasOcc t p₂ s := by
  cases s with
  | nil => rfl
  | cons c rest => rw [hasOcc_cons, hasOcc_cons, h]

theorem hasOcc_suffix (t : List Char) (B : List Char) :
    ∀ (A : List Char) (prev : Option Char),
      hasOcc t prev (A ++ B) = false → hasOcc t (lastOpt A prev) B = false := by
  intro A
  induction A with
  | nil => intro prev h; simpa [lastOpt_nil] using h
  | cons a as ih =>
    intro prev h
    rw [List.cons_append, hasOcc_cons, Bool.or_eq_false_iff] at h
    rw [lastOpt_cons]
    exact ih (some a) h.2

theorem hasOcc_wordblock (t : List Char) (hthw : isWordOpt t.head? = true) :
    ∀ (A : List Char) (p : Option Char) (B : List Char), A ≠ [] →
      (∀ c ∈ A, isWordChar c = true) →
      hasOcc t p (A ++ B) =
        (canMatch t p (A ++ B) || hasOcc t (lastOpt A p) B) := by
  intro A
  induction A with
  | nil => intro p B h; exact absurd rfl h
  | cons a as ih =>
    intro p B _ hw
    rw [List.cons_append, hasOcc_cons, lastOpt_cons, ← List.cons_append]
    cases as with
    | nil => simp [lastOpt]
    | cons b bs =>
      rw [ih (some a) B (by simp) (fun c hc => hw c (List.mem_cons_of_mem a hc))]
      rw [canMatch_false_word_prev t a _ (hw a (List.mem_cons_self a _)) hthw]
      simp

theorem quoteScan_head (t : List Char) (prev : Option Char) (s : List Char) :
    (quoteScan t prev s).head? = s.head? ∨
      (quoteScan t prev s).head? = some '"' := by
  cases s with
  | nil => left; rfl
  | cons c rest =>
    rw [quoteScan_cons]
    by_cases hm : canMatch t prev (c :: rest) = true
    · rw [if_pos hm]; right; rfl
    · rw [if_neg hm]; left; rfl

theorem quoteScan_split (t : List Char) :
    ∀ (s p : List Char) (prev : Option Char), (∀ c ∈ p, c ≠ '"') →
      lpre p (quoteScan t prev s) = true →
      lpre p s = true ∧
        quoteScan t prev s = p ++ quoteScan t (lastOpt p prev) (s.drop p.length) := by
  intro s
  induction s with
  | nil =>
    intro p prev _ h
    rw [quoteScan_nil] at h ⊢
    cases p with
    | nil => exact ⟨rfl, rfl⟩
    | cons a as => simp [lpre] at h
  | cons c rest ih =>
    intro p prev hqp h
    cases p with
    | nil => exact ⟨lpre_nil _, by simp [lastOpt_nil]⟩
    | cons a as =>
      rw [quoteScan_cons] at h ⊢
      by_cases hm : canMatch t prev (c :: rest) = true
      · rw [if_pos hm] at h
        rw [lpre_cons] at h
        have : a = '"' := beq_iff_eq.mp ((Bool.and_eq_true _ _).mp h).1
        exact absurd this (hqp a (List.mem_cons_self a as))
      · rw [if_neg hm] at h ⊢
        rw [lpre_cons] at h
        have hac : a = c := beq_iff_eq.mp ((Bool.and_eq_true _ _).mp h).1
        have htl := ((Bool.and_eq_true _ _).mp h).2
        obtain ⟨h1, h2⟩ :=
          ih as (some c) (fun x hx => hqp x (List.mem_cons_of_mem a hx)) htl
        subst hac
        refine ⟨by rw [lpre_cons, h1]; simp, ?_⟩
        rw [h2, lastOpt_cons]
        simp [List.drop_succ_cons]

theorem lpre_quoteScan (t : List Char) (s p : List Char) (prev : Option Char)
    (hqp : ∀ c ∈ p, c ≠ '"')
    (h : lpre p (quoteScan t prev s) = true) : lpre p s = true :=
  (quoteScan_split t s p prev hqp h).1

theorem getLast?_some_mem (t : List Char) (hne : t ≠ []) :
    ∃ x, t.getLast? = some x ∧ x ∈ t := by
  induction t with
  | nil => exact absurd rfl hne
  | cons a as ih =>
    cases as with
    | nil => exact ⟨a, rfl, List.mem_singleton.mpr rfl⟩
    | cons b bs =>
      obtain ⟨x, hx, hm⟩ := ih (by simp)
      exact ⟨x, by rw [List.getLast?_cons_cons]; exact hx,
        List.mem_cons_of_mem a hm⟩

theorem head_word (t : List Char) (hw : ∀ c ∈ t, isWordChar c = true)
    (hne : t ≠ []) : isWordOpt t.head? = true := by
  cases t with
  | nil => exact absurd rfl hne
  | cons a as => exact hw a (List.mem_cons_self a as)

theorem head_ne_quote (t : List Char) (hq : ∀ c ∈ t, c ≠ '"') (hne : t ≠ []) :
    t.head? ≠ some '"' := by
  cases t with
  | nil => exact absurd rfl hne
  | cons a as =>
    intro h
    exact hq a (List.mem_cons_self a as) (by simpa using h)

/-- If no match fires at the head of the input, no match fires at the head of
the scan's output either: the output agrees with the input up to the first
inserted quote, and a quote blocks the lookahead. -/
theorem canMatch_out_false (t tq : List Char) (prev : Option Char) (c : Char)
    (rest Q' : List Char)
    (htq : ∀ x ∈ t, x ≠ '"')
    (ho : quoteScan tq prev (c :: rest) = c :: Q')
    (hin : canMatch t prev (c :: rest) = false) :
    canMatch t prev (c :: Q') = false := by
  apply Bool.eq_false_iff.mpr
  intro hout
  rcases (canMatch_iff _ _ _).mp hout with ⟨hne, hl, hb1, hb2, hq1, hq2⟩
  have hl' : lpre t (quoteScan tq prev (c :: rest)) = true := by rw [ho]; exact hl
  obtain ⟨hlin, hsplit⟩ := quoteScan_split tq (c :: rest) t prev htq hl'
  have hdrop : (c :: Q').drop t.length =
      quoteScan tq (lastOpt t prev) ((c :: rest).drop t.length) := by
    rw [← ho, hsplit, List.drop_left]
  rcases quoteScan_head tq (lastOpt t prev) ((c :: rest).drop t.length) with hh | hh
  · have : canMatch t prev (c :: rest) = true := by
      apply (canMatch_iff _ _ _).mpr
      refine ⟨hne, hlin, hb1, ?_, hq1, ?_⟩
      · rw [← hh, ← hdrop]; exact hb2
      · rw [← hh, ← hdrop]; exact hq2
    rw [this] at hin
    exact Bool.noConfusion hin
  · apply hq2
    rw [hdrop, hh]

theorem quoteScan_id (t : List Char) :
    ∀ (s : List Char) (prev : Option Char),
      hasOcc t prev s = false → quoteScan t prev s = s := by
  intro s
  induction s with
  | nil => intro prev _; exact quoteScan_nil t prev
  | cons c rest ih =>
    intro prev h
    rw [hasOcc_cons, Bool.or_eq_false_iff] at h
    rw [quoteScan_cons, if_neg (by rw [h.1]; simp), ih (some c) h.2]

theorem hasOcc_block (t tw : List Char) (Q : List Char)
    (htww : ∀ c ∈ tw, isWordChar c = true) (htwne : tw ≠ [])
    (hthw : isWordOpt t.head? = true) (hthq : t.head? ≠ some '"')
    (hQ : hasOcc t (some '"') Q = false) :
    hasOcc t (some '"') (tw ++ '"' :: Q) = false := by
  rw [hasOcc_wordblock t hthw tw (some '"') ('"' :: Q) htwne htww,
    Bool.or_eq_false_iff]
  refine ⟨canMatch_false_quote_prev t _, ?_⟩
  rw [hasOcc_cons, Bool.or_eq_false_iff]
  exact ⟨canMatch_false_head t _ '"' Q hthq, hQ⟩

/-- After one quoting pass for `t`, the output contains no unquoted
whole-word occurrence of `t`: every occurrence was rewritten. -/
theorem hasOcc_quoteScan_self (t : List Char)
    (hw : ∀ c ∈ t, isWordChar c = true) (hq : ∀ c ∈ t, c ≠ '"')
    (hne : t ≠ []) :
    ∀ (n : Nat) (s : List Char) (prev : Option Char), s.length ≤ n →
      hasOcc t prev (quoteScan t prev s) = false := by
  intro n
  induction n with
  | zero =>
    intro s prev hlen
    have : s = [] := List.length_eq_zero.mp (Nat.le_zero.mp hlen)
    subst this
    rw [quoteScan_nil]; rfl
  | succ n ih =>
    intro s prev hlen
    cases s with
    | nil => rw [quoteScan_nil]; rfl
    | cons c rest =>
      rw [quoteScan_cons]
      by_cases hm : canMatch t prev (c :: rest) = true
      · rw [if_pos hm, hasOcc_cons, Bool.or_eq_false_iff]
        refine ⟨canMatch_false_head t prev '"' _ (head_ne_quote t hq hne), ?_⟩
        apply hasOcc_block t t _ hw hne (head_word t hw hne)
          (head_ne_quote t hq hne)
        obtain ⟨x, hx, hxm⟩ := getLast?_some_mem t hne
        have hlen' : (List.drop (t.length - 1) rest).length ≤ n := by
          have : rest.length ≤ n := by simp at hlen; omega
          have := List.length_drop (t.length - 1) rest
          omega
        have h1 := ih (List.drop (t.length - 1) rest) t.getLast? hlen'
        rw [← hasOcc_congr_first t (some '"') t.getLast? _ ?_] at h1
        · exact h1
        · rw [canMatch_false_quote_prev, hx,
            canMatch_false_word_prev t x _ (hw x hxm) (head_word t hw hne)]
      · rw [if_neg hm, hasOcc_cons, Bool.or_eq_false_iff]
        have hmf : canMatch t prev (c :: rest) = false := Bool.eq_false_iff.mpr hm
        refine ⟨?_, ih rest (some c) (by simp at hlen; omega)⟩
        apply canMatch_out_false t t prev c rest _ hq ?_ hmf
        rw [quoteScan_cons, if_neg hm]

/-- A quoting pass for another reserved identifier cannot create an unquoted
whole-word occurrence of `t`. -/
theorem hasOcc_quoteScan_other (t tq : List Char)
    (hw : ∀ c ∈ t, isWordChar c = true) (hq : ∀ c ∈ t, c ≠ '"')
    (hne : t ≠ [])
    (hw' : ∀ c ∈ tq, isWordChar c = true) (hq' : ∀ c ∈ tq, c ≠ '"') :
    ∀ (n : Nat) (s : List Char) (prev : Option Char), s.length ≤ n →
      hasOcc t prev s = false →
      hasOcc t prev (quoteScan tq prev s) = false := by
  intro n
  induction n with
  | zero =>
    intro s prev hlen _
    have : s = [] := List.length_eq_zero.mp (Nat.le_zero.mp hlen)
    subst this
    rw [quoteScan_nil]; rfl
  | succ n ih =>
    intro s prev hlen hocc
    cases s with
    | nil => rw [quoteScan_nil]; rfl
    | cons c rest =>
      rw [quoteScan_cons]
      by_cases hm : canMatch tq prev (c :: rest) = true
      · rw [if_pos hm, hasOcc_cons, Bool.or_eq_false_iff]
        refine ⟨canMatch_false_head t prev '"' _ (head_ne_quote t hq hne), ?_⟩
        have htqne : tq ≠ [] := by
          intro hcon
          rcases (canMatch_iff _ _ _).mp hm with ⟨hc, _⟩
          rw [hcon] at hc
          simp at hc
        have hltq : lpre tq (c :: rest) = true :=
          ((canMatch_iff _ _ _).mp hm).2.1
        have hdecomp := lpre_eq_append tq (c :: rest) hltq
        apply hasOcc_block t tq _ hw' htqne (head_word t hw hne)
          (head_ne_quote t hq hne)
        obtain ⟨x, hx, hxm⟩ := getLast?_some_mem tq htqne
        have hlen' : ((c :: rest).drop tq.length).length ≤ n := by
          have h1 : (c :: rest).length ≤ n + 1 := hlen
          have h2 := List.length_drop tq.length (c :: rest)
          have h3 : 1 ≤ tq.length := by
            cases tq with
            | nil => exact absurd rfl htqne
            | cons _ _ => simp
          omega
        have hocc2 : hasOcc t (lastOpt tq prev) ((c :: rest).drop tq.length) = false := by
          apply hasOcc_suffix t _ tq prev
          rw [← hdecomp]
          exact hocc
        have hlast : lastOpt tq prev = some x := by rw [lastOpt, hx]
        rw [hlast] at hocc2
        have h1 := ih ((c :: rest).drop tq.length) (some x) hlen' hocc2
        have hdr : List.drop (tq.length - 1) rest = (c :: rest).drop tq.length := by
          cases tq with
          | nil => exact absurd rfl htqne
          | cons u us => simp [List.drop_succ_cons]
        rw [hdr, hx]
        rw [hasOcc_congr_first t (some '"') (some x) _ ?_]
        · exact h1
        · rw [canMatch_false_quote_prev,
            canMatch_false_word_prev t x _ (hw' x hxm) (head_word t hw hne)]
      · rw [if_neg hm, hasOcc_cons, Bool.or_eq_false_iff]
        rw [hasOcc_cons, Bool.or_eq_false_iff] at hocc
        have hmf : canMatch tq prev (c :: rest) = false := Bool.eq_false_iff.mpr hm
        refine ⟨?_, ih rest (some c) (by simp at hlen; omega) hocc.2⟩
        apply canMatch_out_false t tq prev c rest _ hq ?_ hocc.1
        rw [quoteScan_cons, if_neg hm]

/-! ## Lowered-image lemmas

These relate prefix and substring tests on the lowered image of a scan's
output to the same tests on the lowered input.  `noFit P w` says that `P`
can never be a prefix of `w ++ z`; `suffixSafe P` says that this holds, for
every nonempty suffix of `P`, against both reserved words, and that no
suffix starts with a double quote. -/

theorem lowerChar_quote : lowerChar '"' = '"' := by decide

theorem toLowerList_nil : toLowerList [] = [] := rfl

theorem toLowerList_cons (c : Char) (s : List Char) :
    toLowerList (c :: s) = lowerChar c :: toLowerList s := rfl

theorem toLowerList_append (a b : List Char) :
    toLowerList (a ++ b) = toLowerList a ++ toLowerList b := by
  simp [toLowerList]

def noFit (P w : List Char) : Bool :=
  if P.length ≤ w.length then !(lpre P w) else !(lpre w P)

theorem noFit_spec :
    ∀ (P w z : List Char), noFit P w = true → lpre P (w ++ z) = false := by
  intro P
  induction P with
  | nil =>
    intro w z h
    rw [noFit, if_pos (by simp)] at h
    rw [lpre_nil] at h
    simp at h
  | cons a as ih =>
    intro w z h
    cases w with
    | nil =>
      rw [noFit, if_neg (by simp)] at h
      rw [lpre_nil] at h
      simp at h
    | cons b bs =>
      rw [List.cons_append, lpre_cons]
      by_cases hab : (a == b) = true
      · have hab' : a = b := beq_iff_eq.mp hab
        have h' : noFit as bs = true := by
          rw [noFit] at h ⊢
          by_cases hl : as.length ≤ bs.length
          · rw [if_pos hl]
            rw [if_pos (by simp; omega)] at h
            rw [lpre_cons, hab'] at h
            simpa using h
          · rw [if_neg hl]
            rw [if_neg (by simp; omega)] at h
            rw [lpre_cons, hab'] at h
            simpa using h
        rw [ih bs z h']
        simp
      · rw [Bool.eq_false_iff.mpr hab]
        rfl

def suffixSafe (P : List Char) : Bool :=
  P.tails.all (fun Q => Q.isEmpty ||
    (Q.head? != some '"' && noFit Q ("case".toList) && noFit Q ("order".toList)))

theorem suffixSafe_tail (a : Char) (P : List Char)
    (h : suffixSafe (a :: P) = true) : suffixSafe P = true := by
  rw [suffixSafe, List.tails_cons, List.all_cons] at h
  exact ((Bool.and_eq_true _ _).mp h).2

theorem suffixSafe_self (P : List Char) (h : suffixSafe P = true)
    (hne : P ≠ []) :
    P.head? ≠ some '"' ∧ noFit P ("case".toList) = true ∧
      noFit P ("order".toList) = true := by
  cases P with
  | nil => exact absurd rfl hne
  | cons a as =>
    rw [suffixSafe, List.tails_cons, List.all_cons] at h
    have h1 := ((Bool.and_eq_true _ _).mp h).1
    rw [Bool.or_eq_true] at h1
    rcases h1 with h1 | h1
    · simp at h1
    · rcases (Bool.and_eq_true _ _).mp h1 with ⟨h2, h3⟩
      rcases (Bool.and_eq_true _ _).mp h2 with ⟨h4, h5⟩
      exact ⟨by simpa using h4, h5, h3⟩

/-- Shape facts about a table name whose lowered form is `case` or `order`:
all word characters, no quotes, no whitespace, no semicolons, nonempty. -/
theorem reserved_facts (t : List Char)
    (hlt : toLowerList t = "case".toList ∨ toLowerList t = "order".toList) :
    (∀ c ∈ t, isWordChar c = true) ∧ (∀ c ∈ t, c ≠ '"') ∧ t ≠ [] ∧
      (∀ c ∈ t, isSpaceChar c = false) ∧ (∀ c ∈ t, c ≠ ';') := by
  have hmem : ∀ c ∈ t, lowerChar c = 'c' ∨ lowerChar c = 'a' ∨
      lowerChar c = 's' ∨ lowerChar c = 'e' ∨ lowerChar c = 'o' ∨
      lowerChar c = 'r' ∨ lowerChar c = 'd' := by
    intro c hc
    have hm : lowerChar c ∈ toLowerList t := List.mem_map_of_mem _ hc
    rcases hlt with h | h <;> rw [h] at hm <;> simp at hm <;> tauto
  refine ⟨?_, ?_, ?_, ?_, ?_⟩
  · intro c hc
    apply isWordChar_of_lower
    rcases hmem c hc with h | h | h | h | h | h | h <;> rw [h] <;> decide
  · intro c hc
    apply ne_of_lowerChar_ne
    rw [lowerChar_quote]
    rcases hmem c hc with h | h | h | h | h | h | h <;> rw [h] <;> decide
  · intro hcon
    subst hcon
    rcases hlt with h | h <;> simp [toLowerList_nil] at h
  · intro c hc
    apply not_space_of_lower
    rcases hmem c hc with h | h | h | h | h | h | h <;> rw [h] <;> decide
  · intro c hc
    apply ne_of_lowerChar_ne
    have : lowerChar ';' = ';' := by decide
    rw [this]
    rcases hmem c hc with h | h | h | h | h | h | h <;> rw [h] <;> decide

/-- On the lowered image, a pattern that fits no reserved word is a prefix of
the scan's output iff it is a prefix of the input. -/
theorem lpre_lower_quoteScan (t : List Char)
    (hlt : toLowerList t = "case".toList ∨ toLowerList t = "order".toList) :
    ∀ (s P : List Char) (prev : Option Char),
      suffixSafe P = true → P ≠ [] →
      lpre P (toLowerList (quoteScan t prev s)) =
        lpre P (toLowerList s) := by
  intro s
  induction s with
  | nil => intro P prev _ _; rw [quoteScan_nil]
  | cons c rest ih =>
    intro P prev hsafe hne
    obtain ⟨hP1, hP2, hP3⟩ := suffixSafe_self P hsafe hne
    rw [quoteScan_cons]
    by_cases hm : canMatch t prev (c :: rest) = true
    · rw [if_pos hm]
      have hl : lpre t (c :: rest) = true := ((canMatch_iff _ _ _).mp hm).2.1
      have hdecomp := lpre_eq_append t (c :: rest) hl
      cases P with
      | nil => exact absurd rfl hne
      | cons p ps =>
        have hLHS : lpre (p :: ps)
            (toLowerList ('"' :: (t ++ '"' :: quoteScan t t.getLast?
              (List.drop (t.length - 1) rest)))) = false := by
          rw [toLowerList_cons, lowerChar_quote, lpre_cons]
          have : (p == '"') = false := by
            apply Bool.eq_false_iff.mpr
            intro hcon
            exact hP1 (by simp [beq_iff_eq.mp hcon])
          rw [this]
          rfl
        rw [hLHS]
        have hRHS : lpre (p :: ps) (toLowerList (c :: rest)) = false := by
          conv_lhs => rw [hdecomp]
          rw [toLowerList_append]
          rcases hlt with h | h <;> rw [h]
          · exact noFit_spec (p :: ps) _ _ hP2
          · exact noFit_spec (p :: ps) _ _ hP3
        rw [hRHS]
    · rw [if_neg hm]
      cases P with
      | nil => exact absurd rfl hne
      | cons p ps =>
        rw [toLowerList_cons, toLowerList_cons, lpre_cons, lpre_cons]
        by_cases hp : (p == lowerChar c) = true
        · cases ps with
          | nil => rw [lpre_nil, lpre_nil]
          | cons q qs =>
            rw [ih (q :: qs) (some c) (suffixSafe_tail p _ hsafe) (by simp)]
        · rw [Bool.eq_false_iff.mpr hp]
          rfl

theorem limitL : "limit".toList = ['l', 'i', 'm', 'i', 't'] := rfl

theorem caseL : "case".toList = ['c', 'a', 's', 'e'] := rfl

theorem orderL : "order".toList = ['o', 'r', 'd', 'e', 'r'] := rfl

theorem hasSub_limit_skip (x : Char) (hx : ('l' == x) = false) (z : List Char) :
    hasSub ("limit".toList) (x :: z) = hasSub ("limit".toList) z := by
  rw [hasSub_cons]
  have : lpre ("limit".toList) (x :: z) = false := by
    rw [limitL, lpre_cons, hx]
    rfl
  rw [this, Bool.false_or]

theorem drop_pred_cons (t : List Char) (hne : t ≠ []) (c : Char)
    (rest : List Char) :
    List.drop (t.length - 1) rest = List.drop t.length (c :: rest) := by
  cases t with
  | nil => exact absurd rfl hne
  | cons u us => simp

/-- Quoting never creates nor destroys an occurrence of the substring
`limit` in the lowered image: the inserted quotes cannot fall inside such an
occurrence, and the reserved words share no overlap with `limit`. -/
theorem hasSub_limit_quoteScan (t : List Char)
    (hlt : toLowerList t = "case".toList ∨ toLowerList t = "order".toList) :
    ∀ (n : Nat) (s : List Char) (prev : Option Char), s.length ≤ n →
      hasSub ("limit".toList) (toLowerList (quoteScan t prev s)) =
        hasSub ("limit".toList) (toLowerList s) := by
  intro n
  induction n with
  | zero =>
    intro s prev hlen
    have : s = [] := List.length_eq_zero.mp (Nat.le_zero.mp hlen)
    subst this
    rw [quoteScan_nil]
  | succ n ih =>
    intro s prev hlen
    cases s with
    | nil => rw [quoteScan_nil]
    | cons c rest =>
      rw [quoteScan_cons]
      by_cases hm : canMatch t prev (c :: rest) = true
      · rw [if_pos hm]
        have hl : lpre t (c :: rest) = true := ((canMatch_iff _ _ _).mp hm).2.1
        have hdecomp := lpre_eq_append t (c :: rest) hl
        have htne : t ≠ [] := (reserved_facts t hlt).2.2.1
        have hlen' : (List.drop (t.length - 1) rest).length ≤ n := by
          have : rest.length ≤ n := by simp at hlen; omega
          have := List.length_drop (t.length - 1) rest
          omega
        have hIH := ih (List.drop (t.length - 1) rest) t.getLast? hlen'
        conv_rhs => rw [hdecomp]
        rw [toLowerList_cons, toLowerList_append, toLowerList_append,
          lowerChar_quote, toLowerList_cons, lowerChar_quote,
          ← drop_pred_cons t htne c rest]
        rcases hlt with h | h <;> rw [h]
        · rw [caseL]
          simp only [List.cons_append, List.nil_append]
          rw [hasSub_limit_skip '"' (by decide), hasSub_limit_skip 'c' (by decide),
            hasSub_limit_skip 'a' (by decide), hasSub_limit_skip 's' (by decide),
            hasSub_limit_skip 'e' (by decide), hasSub_limit_skip '"' (by decide),
            hasSub_limit_skip 'c' (by decide), hasSub_limit_skip 'a' (by decide),
            hasSub_limit_skip 's' (by decide), hasSub_limit_skip 'e' (by decide)]
          exact hIH
        · rw [orderL]
          simp only [List.cons_append, List.nil_append]
          rw [hasSub_limit_skip '"' (by decide), hasSub_limit_skip 'o' (by decide),
            hasSub_limit_skip 'r' (by decide), hasSub_limit_skip 'd' (by decide),
            hasSub_limit_skip 'e' (by decide), hasSub_limit_skip 'r' (by decide),
            hasSub_limit_skip '"' (by decide), hasSub_limit_skip 'o' (by decide),
            hasSub_limit_skip 'r' (by decide), hasSub_limit_skip 'd' (by decide),
            hasSub_limit_skip 'e' (by decide), hasSub_limit_skip 'r' (by decide)]
          exact hIH
      · rw [if_neg hm]
        have hfst := lpre_lower_quoteScan t hlt (c :: rest) ("limit".toList)
          prev (by decide) (by decide)
        rw [quoteScan_cons, if_neg hm] at hfst
        rw [toLowerList_cons, toLowerList_cons, hasSub_cons, hasSub_cons]
        rw [toLowerList_cons, toLowerList_cons] at hfst
        rw [hfst, ih rest (some c) (by simp at hlen; omega)]

/-! ## Appending a passive tail to the scanned string

If the appended tail `B` starts with a non-word, non-quote character that
does not occur in `t`, and no character of `B` equals the head of `t`, then
the scan of `A ++ B` is the scan of `A` followed by `B` unchanged: no match
starts in `B`, none crosses the seam, and the lookahead of a match ending at
the seam is equally satisfied by the end of the string and by `B`'s head. -/

theorem lpre_iff_take :
    ∀ (P s : List Char), lpre P s = true ↔
      (P.length ≤ s.length ∧ s.take P.length = P) := by
  intro P
  induction P with
  | nil => intro s; simp [lpre_nil]
  | cons a as ih =>
    intro s
    cases s with
    | nil => simp [lpre]
    | cons b bs =>
      rw [lpre_cons]
      constructor
      · intro h
        rcases (Bool.and_eq_true _ _).mp h with ⟨h1, h2⟩
        have hab : a = b := beq_iff_eq.mp h1
        rcases (ih bs).mp h2 with ⟨h3, h4⟩
        subst hab
        simp [h3, h4]
      · intro h
        simp at h
        rcases h with ⟨h1, h2, h3⟩
        rw [h2]
        simp
        exact (ih bs).mpr ⟨h1, h3⟩

theorem drop_append_le {α : Type} :
    ∀ (n : Nat) (l₁ l₂ : List α), n ≤ l₁.length →
      (l₁ ++ l₂).drop n = l₁.drop n ++ l₂ := by
  intro n
  induction n with
  | zero => intro l₁ l₂ _; simp
  | succ n ih =>
    intro l₁ l₂ h
    cases l₁ with
    | nil => simp at h
    | cons a as =>
      simp only [List.cons_append, List.drop_succ_cons]
      exact ih as l₂ (by simp at h; omega)

theorem take_append_le {α : Type} :
    ∀ (n : Nat) (l₁ l₂ : List α), n ≤ l₁.length →
      (l₁ ++ l₂).take n = l₁.take n := by
  intro n
  induction n with
  | zero => intro l₁ l₂ _; simp
  | succ n ih =>
    intro l₁ l₂ h
    cases l₁ with
    | nil => simp at h
    | cons a as =>
      simp only [List.cons_append, List.take_succ_cons]
      rw [ih as l₂ (by simp at h; omega)]

theorem hasOcc_false_noHead (t : List Char) :
    ∀ (B : List Char) (prev : Option Char),
      (∀ c ∈ B, t.head? ≠ some c) → hasOcc t prev B = false := by
  intro B
  induction B with
  | nil => intro prev _; rfl
  | cons b bs ih =>
    intro prev hB
    rw [hasOcc_cons, Bool.or_eq_false_iff]
    exact ⟨canMatch_false_head t prev b bs (hB b (List.mem_cons_self b bs)),
      ih (some b) (fun c hc => hB c (List.mem_cons_of_mem b hc))⟩

theorem canMatch_append_eq (t : List Char)
    (htw : ∀ c ∈ t, isWordChar c = true) (hne : t ≠ [])
    (B : List Char)
    (hBhead : ∀ c, B.head? = some c → isWordChar c = false ∧ c ≠ '"' ∧ c ∉ t)
    (A : List Char) (prev : Option Char) :
    canMatch t prev (A ++ B) = canMatch t prev A := by
  by_cases hl : lpre t A = true
  · have hlept : t.length ≤ A.length := lpre_length t A hl
    have hlAB : lpre t (A ++ B) = true := lpre_extend t A B hl
    by_cases hfull : t.length = A.length
    · have hdropA : A.drop t.length = [] := by
        rw [hfull, List.drop_length]
      have hdropAB : (A ++ B).drop t.length = B := by
        rw [hfull, List.drop_left]
      cases hB : B.head? with
      | none =>
        have : B = [] := by
          cases B with
          | nil => rfl
          | cons x xs => simp at hB
        subst this
        rw [List.append_nil]
      | some b =>
        obtain ⟨hbw, hbq, _⟩ := hBhead b hB
        obtain ⟨x, hx, hxm⟩ := getLast?_some_mem t hne
        unfold canMatch
        rw [hdropA, hdropAB, hB, hx, hl, hlAB]
        have e1 : wordBoundary (some x) (some b) = true := by
          simp [wordBoundary, isWordOpt, htw x hxm, hbw]
        have e2 : wordBoundary (some x) (([] : List Char)).head? = true := by
          simp [wordBoundary, isWordOpt, htw x hxm]
        rw [e1, e2]
        have e3 : (some b != some '"') = true := by
          simp [bne_iff_ne]
          exact hbq
        have e4 : ((([] : List Char)).head? != some '"') = true := by rfl
        rw [e3, e4]
    · have hlt : t.length < A.length := Nat.lt_of_le_of_ne hlept hfull
      have hdrop : (A ++ B).drop t.length = A.drop t.length ++ B :=
        drop_append_le t.length A B hlept
      cases hAd : A.drop t.length with
      | nil =>
        have := List.length_drop t.length A
        rw [hAd] at this
        simp at this
        omega
      | cons u us =>
        unfold canMatch
        rw [hdrop, hAd, List.cons_append, hl, hlAB]
        simp only [List.head?_cons]
  · have hlf : lpre t A = false := Bool.eq_false_iff.mpr hl
    have hlABf : lpre t (A ++ B) = false := by
      apply Bool.eq_false_iff.mpr
      intro hcon
      rcases (lpre_iff_take t (A ++ B)).mp hcon with ⟨hlen, htake⟩
      by_cases hcase : t.length ≤ A.length
      · rw [take_append_le t.length A B hcase] at htake
        exact hl ((lpre_iff_take t A).mpr ⟨hcase, htake⟩)
      · have hAlt : A.length < t.length := Nat.lt_of_not_le hcase
        cases B with
        | nil =>
          simp at hlen
          omega
        | cons b bs =>
          have hbmem : b ∈ t := by
            rw [List.take_append_eq_append_take] at htake
            have hA : A.take t.length = A := List.take_of_length_le (by omega)
            rw [hA] at htake
            cases hkk : t.length - A.length with
            | zero => omega
            | succ k =>
              rw [hkk] at htake
              simp only [List.take_succ_cons] at htake
              rw [← htake]
              exact List.mem_append_right A (List.mem_cons_self _ _)
          exact (hBhead b rfl).2.2 hbmem
    unfold canMatch
    rw [hlf, hlABf]
    simp

theorem quoteScan_append (t : List Char)
    (htw : ∀ c ∈ t, isWordChar c = true) (hne : t ≠ [])
    (B : List Char)
    (hB1 : ∀ c ∈ B, t.head? ≠ some c)
    (hBhead : ∀ c, B.head? = some c → isWordChar c = false ∧ c ≠ '"' ∧ c ∉ t) :
    ∀ (n : Nat) (A : List Char) (prev : Option Char), A.length ≤ n →
      quoteScan t prev (A ++ B) = quoteScan t prev A ++ B := by
  intro n
  induction n with
  | zero =>
    intro A prev hlen
    have : A = [] := List.length_eq_zero.mp (Nat.le_zero.mp hlen)
    subst this
    rw [List.nil_append, quoteScan_nil, List.nil_append]
    exact quoteScan_id t B prev (hasOcc_false_noHead t B prev hB1)
  | succ n ih =>
    intro A prev hlen
    cases A with
    | nil =>
      rw [List.nil_append, quoteScan_nil, List.nil_append]
      exact quoteScan_id t B prev (hasOcc_false_noHead t B prev hB1)
    | cons c rest =>
      rw [List.cons_append, quoteScan_cons, quoteScan_cons,
        ← List.cons_append,
        canMatch_append_eq t htw hne B hBhead (c :: rest) prev]
      by_cases hm : canMatch t prev (c :: rest) = true
      · rw [if_pos hm, if_pos hm]
        have hl : lpre t (c :: rest) = true := ((canMatch_iff _ _ _).mp hm).2.1
        have hlen2 : t.length ≤ rest.length + 1 := by
          have := lpre_length t (c :: rest) hl
          simpa using this
        have hdrop : List.drop (t.length - 1) (rest ++ B) =
            List.drop (t.length - 1) rest ++ B :=
          drop_append_le (t.length - 1) rest B (by omega)
        rw [hdrop, ih (List.drop (t.length - 1) rest) t.getLast?
          (by have := List.length_drop (t.length - 1) rest; simp at hlen; omega)]
        simp
      · rw [if_neg hm, if_neg hm,
          ih rest (some c) (by simp at hlen; omega)]
        simp

/-! ## Decomposition of the trailing strips -/

theorem dropWhile_head_not (p : Char → Bool) :
    ∀ (l : List Char) (x : Char) (xs : List Char),
      l.dropWhile p = x :: xs → p x = false := by
  intro l
  induction l with
  | nil => intro x xs h; simp at h
  | cons c cs ih =>
    intro x xs h
    by_cases hc : p c = true
    · rw [List.dropWhile_cons_of_pos hc] at h
      exact ih x xs h
    · rw [List.dropWhile_cons_of_neg hc] at h
      have : c = x := (List.cons.injEq _ _ _ _ ▸ h).1
      rw [← this]
      exact Bool.eq_false_iff.mpr hc

theorem dropWhile_append_all (p : Char → Bool) :
    ∀ (l₁ l₂ : List Char), (∀ c ∈ l₁, p c = true) →
      (l₁ ++ l₂).dropWhile p = l₂.dropWhile p := by
  intro l₁
  induction l₁ with
  | nil => intro l₂ _; rfl
  | cons a as ih =>
    intro l₂ h
    rw [List.cons_append,
      List.dropWhile_cons_of_pos (h a (List.mem_cons_self a as))]
    exact ih l₂ (fun c hc => h c (List.mem_cons_of_mem a hc))

theorem dropWhile_head_false (p : Char → Bool) (l : List Char)
    (h : ∀ x, l.head? = some x → p x = false) : l.dropWhile p = l := by
  cases l with
  | nil => rfl
  | cons a as => exact List.dropWhile_cons_of_neg (by simp [h a rfl])

theorem dropTrail_decomp (p : Char → Bool) (s : List Char) :
    ∃ W, s = dropTrailWhile p s ++ W ∧ (∀ c ∈ W, p c = true) ∧
      (∀ x, (dropTrailWhile p s).getLast? = some x → p x = false) := by
  refine ⟨(s.reverse.takeWhile p).reverse, ?_, ?_, ?_⟩
  · conv_lhs => rw [← s.reverse_reverse]
    conv_lhs => rw [← List.takeWhile_append_dropWhile (p := p) (l := s.reverse)]
    rw [List.reverse_append]
    rfl
  · intro c hc
    rw [List.mem_reverse] at hc
    exact List.mem_takeWhile_imp hc
  · intro x hx
    rw [dropTrailWhile, List.getLast?_reverse] at hx
    obtain ⟨xs, hxs⟩ : ∃ xs, s.reverse.dropWhile p = x :: xs := by
      cases hh : s.reverse.dropWhile p with
      | nil => rw [hh] at hx; simp at hx
      | cons y ys =>
        rw [hh] at hx
        simp at hx
        exact ⟨ys, by rw [hx]⟩
    exact dropWhile_head_not p s.reverse x xs hxs

theorem dropTrail_append (p : Char → Bool) (A W : List Char)
    (hW : ∀ c ∈ W, p c = true)
    (hA : ∀ x, A.getLast? = some x → p x = false) :
    dropTrailWhile p (A ++ W) = A := by
  rw [dropTrailWhile, List.reverse_append,
    dropWhile_append_all p W.reverse A.reverse
      (fun c hc => hW c (List.mem_reverse.mp hc)),
    dropWhile_head_false p A.reverse
      (fun x hx => hA x (by rw [← List.getLast?_reverse, List.reverse_reverse] at hx; exact hx)),
    List.reverse_reverse]

theorem getLast?_append_right {α : Type} :
    ∀ (l₁ l₂ : List α), l₂ ≠ [] → (l₁ ++ l₂).getLast? = l₂.getLast? := by
  intro l₁ l₂ h
  rw [List.getLast?_append_of_ne_nil]
  exact h

theorem getLast?_cons_of_ne (a : Char) (l : List Char) (h : l ≠ []) :
    (a :: l).getLast? = l.getLast? := by
  cases l with
  | nil => exact absurd rfl h
  | cons b bs => exact List.getLast?_cons_cons

theorem quoteScan_nil_iff (t : List Char) (prev : Option Char)
    (s : List Char) : quoteScan t prev s = [] ↔ s = [] := by
  constructor
  · intro h
    cases s with
    | nil => rfl
    | cons c rest =>
      rw [quoteScan_cons] at h
      by_cases hm : canMatch t prev (c :: rest) = true
      · rw [if_pos hm] at h; simp at h
      · rw [if_neg hm] at h; simp at h
  · intro h; subst h; exact quoteScan_nil t prev

/-- The last character of a scan's output is the last character of the input
or a closing quote. -/
theorem quoteScan_getLast (t : List Char) (hne : t ≠ []) :
    ∀ (n : Nat) (s : List Char) (prev : Option Char), s.length ≤ n →
      (quoteScan t prev s).getLast? = s.getLast? ∨
        (quoteScan t prev s).getLast? = some '"' := by
  intro n
  induction n with
  | zero =>
    intro s prev hlen
    have : s = [] := List.length_eq_zero.mp (Nat.le_zero.mp hlen)
    subst this
    left; rw [quoteScan_nil]
  | succ n ih =>
    intro s prev hlen
    cases s with
    | nil => left; rw [quoteScan_nil]
    | cons c rest =>
      rw [quoteScan_cons]
      by_cases hm : canMatch t prev (c :: rest) = true
      · rw [if_pos hm]
        have hl : lpre t (c :: rest) = true := ((canMatch_iff _ _ _).mp hm).2.1
        have hdecomp := lpre_eq_append t (c :: rest) hl
        have hlen' : (List.drop (t.length - 1) rest).length ≤ n := by
          have := List.length_drop (t.length - 1) rest
          simp at hlen
          omega
        by_cases hrest : List.drop (t.length - 1) rest = []
        · rw [hrest, quoteScan_nil]
          right
          rw [getLast?_cons_of_ne _ _ (by simp),
            getLast?_append_right t ['"'] (by simp)]
          rfl
        · have hQne : quoteScan t t.getLast? (List.drop (t.length - 1) rest) ≠ [] :=
            fun hcon => hrest ((quoteScan_nil_iff _ _ _).mp hcon)
          rw [getLast?_cons_of_ne _ _ (by simp),
            getLast?_append_right t _ (by simp),
            getLast?_cons_of_ne _ _ hQne]
          rcases ih (List.drop (t.length - 1) rest) t.getLast? hlen' with h | h
          · left
            rw [h]
            conv_rhs => rw [hdecomp]
            rw [getLast?_append_right t _ ?_, drop_pred_cons t hne c rest]
            rw [drop_pred_cons t hne c rest] at hrest
            exact hrest
          · right; rw [h]
      · rw [if_neg hm]
        by_cases hrest : rest = []
        · subst hrest
          left
          rw [quoteScan_nil]
        · have hQne : quoteScan t (some c) rest ≠ [] :=
            fun hcon => hrest ((quoteScan_nil_iff _ _ _).mp hcon)
          rw [getLast?_cons_of_ne _ _ hQne, getLast?_cons_of_ne _ _ hrest]
          exact ih rest (some c) (by simp at hlen; omega)

/-! ## Character classes of the appended LIMIT clause -/

theorem word_not_space (c : Char) (h : isWordChar c = true) :
    isSpaceChar c = false := by
  rw [isWordChar] at h
  simp only [Bool.or_eq_true, Bool.and_eq_true] at h
  rw [isSpaceChar]
  rcases h with ((h | h) | h) | h
  · simp at h ⊢; omega
  · simp at h ⊢; omega
  · simp at h ⊢; omega
  · have : c = '_' := beq_iff_eq.mp h
    subst this
    decide

theorem space_not_word (c : Char) (h : isSpaceChar c = true) :
    isWordChar c = false := by
  by_cases hw : isWordChar c = true
  · rw [word_not_space c hw] at h
    exact Bool.noConfusion h
  · exact Bool.eq_false_iff.mpr hw

theorem toDigitsCore_digits :
    ∀ (fuel n : Nat) (acc : List Char),
      (∀ c ∈ acc, c ∈ "0123456789".toList) →
      ∀ c ∈ Nat.toDigitsCore 10 fuel n acc, c ∈ "0123456789".toList := by
  intro fuel
  induction fuel with
  | zero => intro n acc hacc c hc; exact hacc c hc
  | succ fuel ih =>
    intro n acc hacc c hc
    rw [Nat.toDigitsCore] at hc
    have hdig : Nat.digitChar (n % 10) ∈ "0123456789".toList := by
      have hlt : n % 10 < 10 := Nat.mod_lt _ (by norm_num)
      interval_cases h : n % 10 <;> decide
    by_cases hz : n / 10 = 0
    · rw [if_pos hz] at hc
      rcases List.mem_cons.mp hc with h | h
      · rw [h]; exact hdig
      · exact hacc c h
    · rw [if_neg hz] at hc
      apply ih (n / 10) _ _ c hc
      intro x hx
      rcases List.mem_cons.mp hx with h | h
      · rw [h]; exact hdig
      · exact hacc x h

theorem toDigits_digits (n : Nat) :
    ∀ c ∈ Nat.toDigits 10 n, c ∈ "0123456789".toList := by
  intro c hc
  exact toDigitsCore_digits (n + 1) n [] (by intro x hx; simp at hx) c hc

/-- Every character of the LIMIT clause has a lowered form among space, the
letters of `limit` and the ten digits. -/
theorem limitClause_chars (limit : Nat) :
    ∀ c ∈ limitClause limit,
      isWordChar c = true ∨ isSpaceChar c = true := by
  intro c hc
  rw [limitClause] at hc
  rcases List.mem_append.mp hc with h | h
  · fin_cases h
    all_goals first
    | (left; decide)
    | (right; decide)
  · have hd := toDigits_digits limit c h
    fin_cases hd
    all_goals (left; decide)

theorem limitClause_lower (limit : Nat) :
    ∀ c ∈ limitClause limit, lowerChar c ≠ 'c' ∧ lowerChar c ≠ 'o' := by
  intro c hc
  rw [limitClause] at hc
  rcases List.mem_append.mp hc with h | h
  · fin_cases h
    all_goals exact ⟨by decide, by decide⟩
  · have hd := toDigits_digits limit c h
    fin_cases hd
    all_goals exact ⟨by decide, by decide⟩

theorem limitClause_head (limit : Nat) : (limitClause limit).head? = some ' ' := rfl

/-! ## Commutation of the row cap and the quoting passes -/

theorem mem_of_getLast? (L : List Char) (x : Char) (h : L.getLast? = some x) :
    x ∈ L := by
  have hne : L ≠ [] := by intro hc; subst hc; simp at h
  obtain ⟨y, hy, hm⟩ := getLast?_some_mem L hne
  rw [hy] at h
  simp at h
  rw [← h]
  exact hm

theorem reserved_head_lower (t : List Char)
    (hlt : toLowerList t = "case".toList ∨ toLowerList t = "order".toList) :
    ∀ h, t.head? = some h → lowerChar h = 'c' ∨ lowerChar h = 'o' := by
  intro h hh
  cases t with
  | nil => simp at hh
  | cons a as =>
    simp at hh
    subst hh
    rcases hlt with he | he
    · rw [caseL] at he
      rw [toLowerList_cons] at he
      left
      exact (List.cons.injEq _ _ _ _ ▸ he).1
    · rw [orderL] at he
      rw [toLowerList_cons] at he
      right
      exact (List.cons.injEq _ _ _ _ ▸ he).1

theorem quoteScan_limit (t : List Char)
    (hlt : toLowerList t = "case".toList ∨ toLowerList t = "order".toList)
    (limit : Nat) (A : List Char) (prev : Option Char) :
    quoteScan t prev (A ++ limitClause limit) =
      quoteScan t prev A ++ limitClause limit := by
  obtain ⟨hw, hq, hne, hsp, hsemi⟩ := reserved_facts t hlt
  apply quoteScan_append t hw hne _ ?_ ?_ A.length A prev (le_refl _)
  · intro c hc hcon
    rcases reserved_head_lower t hlt c hcon with h | h
    · exact (limitClause_lower limit c hc).1 h
    · exact (limitClause_lower limit c hc).2 h
  · intro c hc
    rw [limitClause_head] at hc
    have : c = ' ' := by simpa using hc.symm
    subst this
    refine ⟨by decide, by decide, ?_⟩
    intro hmem
    have := hsp ' ' hmem
    exact Bool.noConfusion this

theorem strip_quoteScan (t : List Char)
    (hlt : toLowerList t = "case".toList ∨ toLowerList t = "order".toList)
    (s : List Char) (prev : Option Char) :
    pyRstripSemi (pyRstrip (quoteScan t prev s)) =
      quoteScan t prev (pyRstripSemi (pyRstrip s)) := by
  obtain ⟨hw, hq, hne, hsp, hsemi⟩ := reserved_facts t hlt
  obtain ⟨W, hsW, hWp, hXw⟩ := dropTrail_decomp isSpaceChar s
  obtain ⟨S, hrS, hSp, hXs⟩ := dropTrail_decomp (fun c => c == ';') (pyRstrip s)
  have e1 : dropTrailWhile isSpaceChar s = pyRstrip s := rfl
  have e2 : dropTrailWhile (fun c => c == ';') (pyRstrip s) =
      pyRstripSemi (pyRstrip s) := rfl
  rw [e1] at hsW hXw
  rw [e2] at hrS hXs
  have hs : s = pyRstripSemi (pyRstrip s) ++ (S ++ W) := by
    conv_lhs => rw [hsW]
    conv_lhs => rw [hrS]
    rw [List.append_assoc]
  have hstep1 : quoteScan t prev s =
      quoteScan t prev (pyRstripSemi (pyRstrip s)) ++ (S ++ W) := by
    conv_lhs => rw [hs]
    apply quoteScan_append t hw hne (S ++ W) ?_ ?_ _ _ prev (le_refl _)
    · intro c hc hcon
      have hcw : isWordChar c = true := by
        cases t with
        | nil => exact absurd rfl hne
        | cons a as =>
          have : a = c := by simpa using hcon
          subst this
          exact hw a (List.mem_cons_self a as)
      rcases List.mem_append.mp hc with h | h
      · have : c = ';' := beq_iff_eq.mp (hSp c h)
        subst this
        exact Bool.noConfusion hcw
      · have hspc := hWp c h
        rw [word_not_space c hcw] at hspc
        exact Bool.noConfusion hspc
    · intro c hc
      cases S with
      | cons s₀ ss =>
        have : s₀ = c := by simpa using hc
        subst this
        have : s₀ = ';' := beq_iff_eq.mp (hSp s₀ (List.mem_cons_self _ _))
        subst this
        refine ⟨by decide, by decide, ?_⟩
        intro hmem
        exact (hsemi ';' hmem) rfl
      | nil =>
        simp only [List.nil_append] at hc
        have hcW : c ∈ W := by
          cases W with
          | nil => simp at hc
          | cons w ws =>
            have : w = c := by simpa using hc
            subst this
            exact List.mem_cons_self _ _
        have hcs : isSpaceChar c = true := hWp c hcW
        refine ⟨space_not_word c hcs, ?_, ?_⟩
        · intro hcon
          subst hcon
          exact Bool.noConfusion hcs
        · intro hmem
          rw [hsp c hmem] at hcs
          exact Bool.noConfusion hcs
  rw [hstep1]
  have hstep2 : pyRstrip (quoteScan t prev (pyRstripSemi (pyRstrip s)) ++ (S ++ W)) =
      quoteScan t prev (pyRstripSemi (pyRstrip s)) ++ S := by
    rw [← List.append_assoc]
    apply dropTrail_append isSpaceChar _ W hWp
    intro x hx
    cases S with
    | cons s₀ ss =>
      rw [getLast?_append_right _ _ (by simp)] at hx
      have hmem : x ∈ s₀ :: ss := mem_of_getLast? _ x hx
      have : x = ';' := beq_iff_eq.mp (hSp x hmem)
      subst this
      decide
    | nil =>
      rw [List.append_nil] at hx
      rcases quoteScan_getLast t hne (pyRstripSemi (pyRstrip s)).length
          (pyRstripSemi (pyRstrip s)) prev (le_refl _) with h | h
      · rw [h] at hx
        apply hXw
        rw [hrS, List.append_nil]
        exact hx
      · rw [h] at hx
        have : '"' = x := by simpa using hx
        subst this
        decide
  show pyRstripSemi (pyRstrip (quoteScan t prev (pyRstripSemi (pyRstrip s)) ++ (S ++ W))) = _
  rw [hstep2]
  show dropTrailWhile (fun c => c == ';') _ = _
  apply dropTrail_append (fun c => c == ';') _ S hSp
  intro x hx
  rcases quoteScan_getLast t hne (pyRstripSemi (pyRstrip s)).length
      (pyRstripSemi (pyRstrip s)) prev (le_refl _) with h | h
  · rw [h] at hx
    exact hXs x hx
  · rw [h] at hx
    have : '"' = x := by simpa using hx
    subst this
    decide

theorem ensure_quoteScan_comm (t : List Char)
    (hlt : toLowerList t = "case".toList ∨ toLowerList t = "order".toList)
    (limit : Nat) (s : List Char) (prev : Option Char) :
    quoteScan t prev (ensure_limit s limit) =
      ensure_limit (quoteScan t prev s) limit := by
  have hA1 := hasSub_limit_quoteScan t hlt s.length s prev (le_refl _)
  by_cases hsub : hasSub ("limit".toList) (toLowerList s) = true
  · rw [ensure_limit, if_pos hsub, ensure_limit, if_pos (by rw [hA1]; exact hsub)]
  · rw [ensure_limit, if_neg hsub, ensure_limit, if_neg (by rw [hA1]; exact hsub)]
    rw [quoteScan_limit t hlt limit _ prev, strip_quoteScan t hlt s prev]

theorem quote_tables_nil (sql : List Char) : quote_reserved_tables sql [] = sql := rfl

theorem quote_tables_cons (sql : List Char) (tb : List Char × List (List Char))
    (rest : SchemaMap) :
    quote_reserved_tables sql (tb :: rest) =
      quote_reserved_tables
        (if reservedNames.contains (toLowerList tb.1) then quoteScan tb.1 none sql
         else sql) rest := by
  rw [quote_reserved_tables, quote_reserved_tables, List.foldl_cons]

theorem reserved_of_contains (tb : List Char)
    (h : reservedNames.contains (toLowerList tb) = true) :
    toLowerList tb = "case".toList ∨ toLowerList tb = "order".toList := by
  rw [List.contains_eq_any_beq, List.any_eq_true] at h
  obtain ⟨x, hx, hbe⟩ := h
  have he : toLowerList tb = x := beq_iff_eq.mp hbe
  fin_cases hx
  · left; exact he
  · right; exact he

/-- Enforcing the row cap before all the quoting passes produces the same
string as enforcing it after them. -/
theorem ensure_quote_tables_comm :
    ∀ (tables : SchemaMap) (s : List Char) (limit : Nat),
      quote_reserved_tables (ensure_limit s limit) tables =
        ensure_limit (quote_reserved_tables s tables) limit := by
  intro tables
  induction tables with
  | nil => intro s limit; rfl
  | cons tb rest ih =>
    intro s limit
    rw [quote_tables_cons, quote_tables_cons]
    by_cases hres : reservedNames.contains (toLowerList tb.1) = true
    · rw [if_pos hres, if_pos hres,
        ensure_quoteScan_comm tb.1 (reserved_of_contains tb.1 hres) limit s none]
      exact ih (quoteScan tb.1 none s) limit
    · rw [if_neg hres, if_neg hres]
      exact ih s limit

/-! ## Idempotence of the sanitization pipeline -/

theorem hasSub_limit_tables :
    ∀ (tables : SchemaMap) (z : List Char),
      hasSub ("limit".toList) (toLowerList (quote_reserved_tables z tables)) =
        hasSub ("limit".toList) (toLowerList z) := by
  intro tables
  induction tables with
  | nil => intro z; rfl
  | cons tb rest ih =>
    intro z
    rw [quote_tables_cons]
    by_cases hres : reservedNames.contains (toLowerList tb.1) = true
    · rw [if_pos hres, ih,
        hasSub_limit_quoteScan tb.1 (reserved_of_contains tb.1 hres)
          z.length z none (le_refl _)]
    · rw [if_neg hres, ih]

theorem hasSub_limit_clause (limit : Nat) :
    hasSub ("limit".toList) (toLowerList (limitClause limit)) = true := by
  rw [limitClause, toLowerList_append]
  have : toLowerList (" LIMIT ".toList) = ' ' :: 'l' :: 'i' :: 'm' :: 'i' :: 't' :: [' '] := by
    decide
  rw [this]
  simp only [List.cons_append, List.singleton_append]
  rw [hasSub_cons]
  apply (Bool.or_eq_true _ _).mpr
  right
  rw [hasSub_cons]
  apply (Bool.or_eq_true _ _).mpr
  left
  rw [limitL]
  rw [lpre_cons, lpre_cons, lpre_cons, lpre_cons, lpre_cons, lpre_nil]
  decide

theorem fold_preserves_noOcc :
    ∀ (tables : SchemaMap) (z t : List Char),
      (∀ c ∈ t, isWordChar c = true) → (∀ c ∈ t, c ≠ '"') → t ≠ [] →
      hasOcc t none z = false →
      hasOcc t none (quote_reserved_tables z tables) = false := by
  intro tables
  induction tables with
  | nil => intro z t _ _ _ h; exact h
  | cons tb rest ih =>
    intro z t hw hq hne h
    rw [quote_tables_cons]
    by_cases hres : reservedNames.contains (toLowerList tb.1) = true
    · rw [if_pos hres]
      obtain ⟨hw', hq', _, _, _⟩ :=
        reserved_facts tb.1 (reserved_of_contains tb.1 hres)
      exact ih _ t hw hq hne
        (hasOcc_quoteScan_other t tb.1 hw hq hne hw' hq' z.length z none
          (le_refl _) h)
    · rw [if_neg hres]
      exact ih z t hw hq hne h

theorem fold_creates_noOcc :
    ∀ (tables : SchemaMap) (z : List Char) (tb : List Char × List (List Char)),
      tb ∈ tables → reservedNames.contains (toLowerList tb.1) = true →
      hasOcc tb.1 none (quote_reserved_tables z tables) = false := by
  intro tables
  induction tables with
  | nil => intro z tb hmem; simp at hmem
  | cons hd rest ih =>
    intro z tb hmem hres
    rcases List.mem_cons.mp hmem with heq | hmem'
    · subst heq
      rw [quote_tables_cons, if_pos hres]
      obtain ⟨hw, hq, hne, _, _⟩ :=
        reserved_facts tb.1 (reserved_of_contains tb.1 hres)
      exact fold_preserves_noOcc rest _ tb.1 hw hq hne
        (hasOcc_quoteScan_self tb.1 hw hq hne z.length z none (le_refl _))
    · rw [quote_tables_cons]
      exact ih _ tb hmem' hres

theorem quote_tables_id :
    ∀ (tables : SchemaMap) (z : List Char),
      (∀ tb ∈ tables, reservedNames.contains (toLowerList tb.1) = true →
        hasOcc tb.1 none z = false) →
      quote_reserved_tables z tables = z := by
  intro tables
  induction tables with
  | nil => intro z _; rfl
  | cons tb rest ih =>
    intro z h
    rw [quote_tables_cons]
    by_cases hres : reservedNames.contains (toLowerList tb.1) = true
    · rw [if_pos hres,
        quoteScan_id tb.1 z none (h tb (List.mem_cons_self tb rest) hres)]
      exact ih z (fun x hx => h x (List.mem_cons_of_mem tb hx))
    · rw [if_neg hres]
      exact ih z (fun x hx => h x (List.mem_cons_of_mem tb hx))

theorem quote_tables_idem (tables : SchemaMap) (z : List Char) :
    quote_reserved_tables (quote_reserved_tables z tables) tables =
      quote_reserved_tables z tables := by
  apply quote_tables_id
  intro tb hmem hres
  exact fold_creates_noOcc tables z tb hmem hres

/-- The pipeline `quote_reserved_tables ∘ ensure_limit` is idempotent. -/
theorem pipeline_idem (tables : SchemaMap) (s : List Char) (limit : Nat) :
    quote_reserved_tables
      (ensure_limit (quote_reserved_tables (ensure_limit s limit) tables) limit)
      tables =
    quote_reserved_tables (ensure_limit s limit) tables := by
  have hsub : hasSub ("limit".toList)
      (toLowerList (quote_reserved_tables (ensure_limit s limit) tables)) = true := by
    rw [hasSub_limit_tables]
    rw [ensure_limit]
    by_cases h : hasSub ("limit".toList) (toLowerList s) = true
    · rw [if_pos h]; exact h
    · rw [if_neg h, toLowerList_append]
      exact hasSub_extend_left _ _ _ (hasSub_limit_clause limit)
  rw [ensure_limit, if_pos hsub]
  exact quote_tables_idem tables (ensure_limit s limit)

/-! ## Preservation of the read-only check through the gate -/

theorem lowerChar_of_space (c : Char) (h : isSpaceChar c = true) :
    lowerChar c = c := by
  rw [isSpaceChar] at h
  simp at h
  rw [lowerChar, if_neg]
  omega

theorem lpre_append_no_overlap (P A B : List Char)
    (h : lpre P (A ++ B) = true) (hd : ∀ c, B.head? = some c → c ∉ P) :
    lpre P A = true := by
  rcases (lpre_iff_take P (A ++ B)).mp h with ⟨hlen, htake⟩
  by_cases hc : P.length ≤ A.length
  · rw [take_append_le _ _ _ hc] at htake
    exact (lpre_iff_take P A).mpr ⟨hc, htake⟩
  · exfalso
    cases B with
    | nil =>
      simp at hlen
      omega
    | cons b bs =>
      apply hd b rfl
      rw [List.take_append_eq_append_take] at htake
      have hA : A.take P.length = A := List.take_of_length_le (by omega)
      rw [hA] at htake
      cases hkk : P.length - A.length with
      | zero => omega
      | succ k =>
        rw [hkk] at htake
        simp only [List.take_succ_cons] at htake
        rw [← htake]
        exact List.mem_append_right A (List.mem_cons_self _ _)

theorem sel_rstrip (y : List Char) :
    lpre ("select".toList) (toLowerList (pyRstrip y)) =
      lpre ("select".toList) (toLowerList y) := by
  obtain ⟨W, hyW, hWp, _⟩ := dropTrail_decomp isSpaceChar y
  have e1 : dropTrailWhile isSpaceChar y = pyRstrip y := rfl
  rw [e1] at hyW
  apply Bool.eq_iff_iff.mpr
  constructor
  · intro h
    conv_lhs => rw [hyW]
    rw [toLowerList_append]
    exact lpre_extend _ _ _ h
  · intro h
    conv at h => rw [hyW]
    rw [toLowerList_append] at h
    apply lpre_append_no_overlap _ _ (toLowerList W) h
    intro c hc hmemP
    have hcs : isSpaceChar c = true := by
      cases W with
      | nil => simp [toLowerList_nil] at hc
      | cons w ws =>
        rw [toLowerList_cons] at hc
        simp at hc
        have hws : isSpaceChar w = true := hWp w (List.mem_cons_self _ _)
        rw [lowerChar_of_space w hws] at hc
        rw [← hc]
        exact hws
    fin_cases hmemP <;> exact absurd hcs (by decide)

theorem selectCheck_lstrip (x : List Char) :
    selectCheck x = lpre ("select".toList) (toLowerList (pyLstrip x)) := by
  rw [selectCheck]
  show lpre ("select".toList) (toLowerList (pyRstrip (pyLstrip x))) = _
  exact sel_rstrip (pyLstrip x)

theorem lstrip_append (A B : List Char) :
    pyLstrip (A ++ B) =
      if pyLstrip A = [] then pyLstrip B else pyLstrip A ++ B := by
  induction A with
  | nil => simp [pyLstrip]
  | cons a as ih =>
    have hcons : ∀ (z : List Char), pyLstrip (a :: z) =
        if isSpaceChar a = true then pyLstrip z else a :: z := by
      intro z
      by_cases ha : isSpaceChar a = true
      · rw [if_pos ha]
        show (a :: z).dropWhile isSpaceChar = _
        rw [List.dropWhile_cons_of_pos ha]
        rfl
      · rw [if_neg ha]
        show (a :: z).dropWhile isSpaceChar = _
        rw [List.dropWhile_cons_of_neg ha]
    by_cases ha : isSpaceChar a = true
    · rw [List.cons_append, hcons (as ++ B), if_pos ha, ih,
        hcons as, if_pos ha]
    · rw [List.cons_append, hcons (as ++ B), if_neg ha,
        hcons as, if_neg ha, if_neg (by simp)]
      rfl

/-- If the quoting scan's output starts (after leading whitespace and
lowering) with `select`, so did the input. -/
theorem selLow_quoteScan (t : List Char)
    (hlt : toLowerList t = "case".toList ∨ toLowerList t = "order".toList) :
    ∀ (s : List Char) (prev : Option Char),
      lpre ("select".toList) (toLowerList (pyLstrip (quoteScan t prev s))) = true →
      lpre ("select".toList) (toLowerList (pyLstrip s)) = true := by
  intro s
  induction s with
  | nil => intro prev h; rwa [quoteScan_nil] at h
  | cons c rest ih =>
    intro prev h
    rw [quoteScan_cons] at h
    by_cases hm : canMatch t prev (c :: rest) = true
    · rw [if_pos hm] at h
      exfalso
      have h1 : pyLstrip ('"' :: (t ++ '"' :: quoteScan t t.getLast?
          (List.drop (t.length - 1) rest))) = '"' :: (t ++ '"' :: quoteScan t t.getLast?
          (List.drop (t.length - 1) rest)) := by
        show List.dropWhile _ _ = _
        rw [List.dropWhile_cons_of_neg (by decide)]
      rw [h1, toLowerList_cons, lowerChar_quote] at h
      have : lpre ("select".toList) ('"' :: toLowerList (t ++ '"' :: quoteScan t
          t.getLast? (List.drop (t.length - 1) rest))) = false := by
        rw [show ("select".toList) = 's' :: "elect".toList from rfl, lpre_cons]
        rw [show (('s' : Char) == '\x22') = false from by decide, Bool.false_and]
      rw [this] at h
      exact Bool.noConfusion h
    · rw [if_neg hm] at h
      by_cases hws : isSpaceChar c = true
      · have h1 : pyLstrip (c :: quoteScan t (some c) rest) =
            pyLstrip (quoteScan t (some c) rest) := by
          show (c :: quoteScan t (some c) rest).dropWhile isSpaceChar = _
          rw [List.dropWhile_cons_of_pos hws]
          rfl
        have h2 : pyLstrip (c :: rest) = pyLstrip rest := by
          show (c :: rest).dropWhile isSpaceChar = _
          rw [List.dropWhile_cons_of_pos hws]
          rfl
        rw [h1] at h
        rw [h2]
        exact ih (some c) h
      · have h1 : pyLstrip (c :: quoteScan t (some c) rest) =
            c :: quoteScan t (some c) rest := by
          show (c :: quoteScan t (some c) rest).dropWhile isSpaceChar = _
          rw [List.dropWhile_cons_of_neg hws]
        have h2 : pyLstrip (c :: rest) = c :: rest := by
          show (c :: rest).dropWhile isSpaceChar = _
          rw [List.dropWhile_cons_of_neg hws]
        rw [h1] at h
        rw [h2]
        have heq := lpre_lower_quoteScan t hlt (c :: rest) ("select".toList)
          prev (by decide) (by decide)
        rw [quoteScan_cons, if_neg hm] at heq
        rw [← heq]
        exact h

theorem selectCheck_quoteScan (t : List Char)
    (hlt : toLowerList t = "case".toList ∨ toLowerList t = "order".toList)
    (s : List Char) (h : selectCheck (quoteScan t none s) = true) :
    selectCheck s = true := by
  rw [selectCheck_lstrip] at h ⊢
  exact selLow_quoteScan t hlt s none h

theorem selectCheck_tables :
    ∀ (tables : SchemaMap) (s : List Char),
      selectCheck (quote_reserved_tables s tables) = true →
      selectCheck s = true := by
  intro tables
  induction tables with
  | nil => intro s h; exact h
  | cons tb rest ih =>
    intro s h
    rw [quote_tables_cons] at h
    by_cases hres : reservedNames.contains (toLowerList tb.1) = true
    · rw [if_pos hres] at h
      exact selectCheck_quoteScan tb.1 (reserved_of_contains tb.1 hres) s
        (ih _ h)
    · rw [if_neg hres] at h
      exact ih s h

theorem selectCheck_ensure (s : List Char) (limit : Nat)
    (h : selectCheck (ensure_limit s limit) = true) : selectCheck s = true := by
  rw [ensure_limit] at h
  by_cases hsub : hasSub ("limit".toList) (toLowerList s) = true
  · rwa [if_pos hsub] at h
  · rw [if_neg hsub] at h
    rw [selectCheck_lstrip, lstrip_append] at h
    by_cases hX : pyLstrip (pyRstripSemi (pyRstrip s)) = []
    · exfalso
      rw [if_pos hX] at h
      have hcl : pyLstrip (limitClause limit) =
          'L' :: 'I' :: 'M' :: 'I' :: 'T' :: ' ' :: Nat.toDigits 10 limit := rfl
      rw [hcl, toLowerList_cons] at h
      have : lpre ("select".toList)
          (lowerChar 'L' :: toLowerList ('I' :: 'M' :: 'I' :: 'T' :: ' ' ::
            Nat.toDigits 10 limit)) = false := by
        rw [show ("select".toList) = 's' :: "elect".toList from rfl, lpre_cons]
        rw [show (('s' : Char) == lowerChar 'L') = false from by decide,
          Bool.false_and]
      rw [this] at h
      exact Bool.noConfusion h
    · rw [if_neg hX] at h
      rw [toLowerList_append] at h
      have hXsel : lpre ("select".toList)
          (toLowerList (pyLstrip (pyRstripSemi (pyRstrip s)))) = true := by
        apply lpre_append_no_overlap _ _ _ h
        intro c hc hmemP
        have : c = ' ' := by
          have : (toLowerList (limitClause limit)).head? = some ' ' := rfl
          rw [this] at hc
          simpa using hc.symm
        subst this
        revert hmemP
        decide
      obtain ⟨W, hsW, hWp, _⟩ := dropTrail_decomp isSpaceChar s
      obtain ⟨S, hrS, hSp, _⟩ := dropTrail_decomp (fun c => c == ';') (pyRstrip s)
      have e1 : dropTrailWhile isSpaceChar s = pyRstrip s := rfl
      have e2 : dropTrailWhile (fun c => c == ';') (pyRstrip s) =
          pyRstripSemi (pyRstrip s) := rfl
      rw [e1] at hsW
      rw [e2] at hrS
      have hs : s = pyRstripSemi (pyRstrip s) ++ (S ++ W) := by
        conv_lhs => rw [hsW]
        conv_lhs => rw [hrS]
        rw [List.append_assoc]
      rw [selectCheck_lstrip]
      conv_lhs => rw [hs]
      rw [lstrip_append, if_neg hX, toLowerList_append]
      exact lpre_extend _ _ _ hXsel

/-! ## The quoting pass only inserts double quotes -/

theorem filter_self_of_no_quote (t : List Char) (hq : ∀ c ∈ t, c ≠ '"') :
    t.filter (fun c => c != '"') = t := by
  induction t with
  | nil => rfl
  | cons a as ih =>
    rw [List.filter_cons]
    have ha : (a != '"') = true := by
      simp [bne_iff_ne]
      exact hq a (List.mem_cons_self a as)
    rw [if_pos ha, ih (fun c hc => hq c (List.mem_cons_of_mem a hc))]

theorem quoteScan_filter (t : List Char) (hq : ∀ c ∈ t, c ≠ '"') :
    ∀ (n : Nat) (s : List Char) (prev : Option Char), s.length ≤ n →
      (quoteScan t prev s).filter (fun c => c != '"') =
        s.filter (fun c => c != '"') := by
  intro n
  induction n with
  | zero =>
    intro s prev hlen
    have : s = [] := List.length_eq_zero.mp (Nat.le_zero.mp hlen)
    subst this
    rw [quoteScan_nil]
  | succ n ih =>
    intro s prev hlen
    cases s with
    | nil => rw [quoteScan_nil]
    | cons c rest =>
      rw [quoteScan_cons]
      by_cases hm : canMatch t prev (c :: rest) = true
      · rw [if_pos hm]
        have hl : lpre t (c :: rest) = true := ((canMatch_iff _ _ _).mp hm).2.1
        have hdecomp := lpre_eq_append t (c :: rest) hl
        have htne : t ≠ [] := by
          intro hcon
          rcases (canMatch_iff _ _ _).mp hm with ⟨hc, _⟩
          rw [hcon] at hc
          simp at hc
        have hlen' : (List.drop (t.length - 1) rest).length ≤ n := by
          have := List.length_drop (t.length - 1) rest
          simp at hlen
          omega
        conv_rhs => rw [hdecomp]
        rw [List.filter_cons, if_neg (by simp), List.filter_append,
          List.filter_cons, if_neg (by simp),
          List.filter_append, filter_self_of_no_quote t hq,
          ← drop_pred_cons t htne c rest,
          ih (List.drop (t.length - 1) rest) t.getLast? hlen']
      · rw [if_neg hm]
        rw [List.filter_cons, List.filter_cons,
          ih rest (some c) (by simp at hlen; omega)]

/-! ## Python dict lemmas for the executor -/

theorem pyDictInsert_fresh {V : Type} (m : List (List Char × V))
    (k : List Char) (v : V) (h : ∀ q ∈ m, q.1 ≠ k) :
    pyDictInsert m k v = m ++ [(k, v)] := by
  rw [pyDictInsert, if_neg]
  intro hcon
  rw [List.any_eq_true] at hcon
  obtain ⟨q, hq, hqk⟩ := hcon
  exact h q hq (beq_iff_eq.mp hqk)

theorem pyDict_fold_nodup {V : Type} :
    ∀ (pairs acc : List (List Char × V)),
      (∀ p ∈ pairs, ∀ q ∈ acc, q.1 ≠ p.1) →
      (pairs.map Prod.fst).Nodup →
      pairs.foldl (fun m p => pyDictInsert m p.1 p.2) acc = acc ++ pairs := by
  intro pairs
  induction pairs with
  | nil => intro acc _ _; simp
  | cons p ps ih =>
    intro acc hdisj hnd
    rw [List.foldl_cons,
      pyDictInsert_fresh acc p.1 p.2
        (fun q hq => hdisj p (List.mem_cons_self p ps) q hq)]
    have hnd' : (ps.map Prod.fst).Nodup := by
      rw [List.map_cons, List.nodup_cons] at hnd
      exact hnd.2
    have hp1 : p.1 ∉ ps.map Prod.fst := by
      rw [List.map_cons, List.nodup_cons] at hnd
      exact hnd.1
    rw [ih (acc ++ [(p.1, p.2)]) ?_ hnd']
    · simp
    · intro x hx q hq
      rcases List.mem_append.mp hq with h | h
      · exact hdisj x (List.mem_cons_of_mem p hx) q h
      · have : q = (p.1, p.2) := by simpa using h
        rw [this]
        intro hcon
        exact hp1 (hcon ▸ List.mem_map_of_mem Prod.fst hx)

theorem pyDict_nodup {V : Type} (pairs : List (List Char × V))
    (hnd : (pairs.map Prod.fst).Nodup) : pyDict pairs = pairs := by
  rw [pyDict, pyDict_fold_nodup pairs [] (by intro p _ q hq; simp at hq) hnd]
  rfl

theorem pyGet_zip {V : Type} :
    ∀ (cols : List (List Char)) (row : List V), cols.Nodup →
      row.length = cols.length →
      ∀ (i : Nat) (h : i < cols.length) (h2 : i < row.length),
        pyGet (cols.zip row) (cols.get ⟨i, h⟩) = some (row.get ⟨i, h2⟩) := by
  intro cols
  induction cols with
  | nil => intro row _ _ i h; simp at h
  | cons c cs ih =>
    intro row hnd hlen i h h2
    cases row with
    | nil => simp at hlen
    | cons v vs =>
      cases i with
      | zero =>
        rw [List.zip_cons_cons]
        rw [pyGet, List.find?_cons]
        simp
      | succ i =>
        rw [List.zip_cons_cons]
        have hige : i < cs.length := by simp at h; omega
        have hget : (c :: cs).get ⟨i + 1, h⟩ = cs.get ⟨i, hige⟩ := rfl
        have hne : c ≠ cs.get ⟨i, hige⟩ := by
          rw [List.nodup_cons] at hnd
          intro hcon
          exact hnd.1 (hcon ▸ List.get_mem cs _ _)
        have hbeq : ((c, v).1 == (c :: cs).get ⟨i + 1, h⟩) = false := by
          rw [hget]
          apply Bool.eq_false_iff.mpr
          intro hcon
          exact hne (beq_iff_eq.mp hcon)
        rw [pyGet, List.find?_cons, hbeq, hget]
        have := ih vs (List.nodup_cons.mp hnd).2 (by simp at hlen; omega) i
          hige (by simp at h2; omega)
        rw [pyGet] at this
        exact this

/-! ## Claim theorems -/

theorem build_sql_select_reject (sql : List Char) (r : Option (List Char))
    (maxRows : Nat) (tables : SchemaMap)
    (hne : sql ≠ []) (hsel : selectCheck sql = false) :
    build_sql (.valid (some sql) r) maxRows tables =
      .error ⟨400, selectOnlyMsg⟩ := by
  have hemp : sql.isEmpty = false := by
    cases sql with
    | nil => exact absurd rfl hne
    | cons a as => rfl
  have hsel2 : selectCheck
      (quote_reserved_tables (ensure_limit sql maxRows) tables) = false := by
    apply Bool.eq_false_iff.mpr
    intro hcon
    rw [selectCheck_ensure sql maxRows (selectCheck_tables tables _ hcon)] at hsel
    exact Bool.noConfusion hsel
  simp only [build_sql, hemp, Bool.false_eq_true, if_false,
    enforce_select_only, hsel2]

/-- C1: a candidate SQL string whose trimmed, lower-cased text does not start
with `select` is rejected by the Safety Gate as a classified 400 bad-request
failure (a value, not a crash), and the database driver is never invoked: for
every driver `exec` the database state returned is the input state.  The
candidate is nonempty because an empty `sql` field is already rejected
upstream as a 502 and never reaches the gate. -/
theorem claim_C1_reject_non_select {V D : Type}
    (exec : D → List Char → SqliteOutcome V × D) (db : D)
    (sql : List Char) (r : Option (List Char)) (maxRows : Nat)
    (tables : SchemaMap)
    (hne : sql ≠ []) (hsel : selectCheck sql = false) :
    answer exec db (.valid (some sql) r) maxRows tables =
      (.error ⟨400, selectOnlyMsg⟩, db) := by
  rw [answer, build_sql_select_reject sql r maxRows tables hne hsel]

/-- C1 witness: the gate rejects `DELETE FROM Account` with a 400 and leaves
the database untouched. -/
theorem claim_C1_witness :
    answer
      (fun (db : Unit) (_ : List Char) =>
        (SqliteOutcome.ok ([] : List (List Char)) ([] : List (List Nat)), db))
      () (.valid (some ("DELETE FROM Account".toList)) none) 50
      [("Account".toList, ["Id".toList])] =
      (.error ⟨400, selectOnlyMsg⟩, ()) :=
  claim_C1_reject_non_select _ () _ none 50 _ (by decide) (by decide)

/-- C2 counterexample: with no `GEMINI_API_KEY` in the environment and a
fresh process, the schema-only endpoint does not succeed — `get_schema` goes
through `get_agent`, whose constructor calls `configure_gemini` and raises
the missing-key error.  This refutes the claim that schema-only operations
succeed without the credential. -/
theorem claim_C2_counterexample :
    ¬ ∃ (result : SchemaMap) (cache : Option Agent),
      get_schema ⟨none, [("Account".toList, ["Id".toList])]⟩ none =
        (.ok result, cache) := by
  intro h
  obtain ⟨result, cache, h⟩ := h
  have : get_schema ⟨none, [("Account".toList, ["Id".toList])]⟩ none =
      (.error missingKeyMsg, none) := rfl
  rw [this] at h
  simp at h

/-- C2 amended: a falsy generation API credential — unset or the empty
string — is fatal at the first construction of the agent singleton; since
the schema endpoint also constructs the agent, schema-only operations fail
without the credential (only module import avoids requiring it), and with a
nonempty credential set the schema endpoint succeeds without any generator
call. -/
theorem claim_C2_key_required (env : Env) :
    ((env.geminiApiKey = none ∨ env.geminiApiKey = some []) →
      get_schema env none = (.error missingKeyMsg, none)) ∧
    (∀ k, env.geminiApiKey = some k → k ≠ [] →
      get_schema env none = (.ok env.catalog, some ⟨env.catalog⟩)) := by
  obtain ⟨key, cat⟩ := env
  constructor
  · intro hk
    rcases hk with hk | hk <;> (simp only at hk; subst hk; rfl)
  · intro k hk hne
    simp only at hk
    subst hk
    cases k with
    | nil => exact absurd rfl hne
    | cons a as => rfl

/-- C2 witness: concrete keyless environment, fresh cache. -/
theorem claim_C2_witness :
    get_schema ⟨none, [("Account".toList, ["Id".toList])]⟩ none =
      (.error missingKeyMsg, none) :=
  (claim_C2_key_required ⟨none, [("Account".toList, ["Id".toList])]⟩).1
    (Or.inl rfl)

/-- Remove at most one trailing semicolon, as the specification words
"with at most one trailing semicolon removed" allow. -/
def dropLastSemi (s : List Char) : List Char :=
  if s.getLast? = some ';' then s.dropLast else s

/-- The behaviour C3 claims for `ensure_limit` (spec-follower definition):
a string containing `limit` is returned unchanged; otherwise the result is
the trimmed original — reading "trimmed" as either the trailing trim the
code performs or a full strip — with at most one trailing semicolon removed,
followed by one LIMIT clause. -/
def ensureLimitClaim (s : List Char) (n : Nat) : Prop :=
  (hasSub ("limit".toList) (toLowerList s) = true → ensure_limit s n = s) ∧
  (hasSub ("limit".toList) (toLowerList s) = false →
    ensure_limit s n = pyRstrip s ++ limitClause n ∨
    ensure_limit s n = dropLastSemi (pyRstrip s) ++ limitClause n ∨
    ensure_limit s n = pyStrip s ++ limitClause n ∨
    ensure_limit s n = dropLastSemi (pyStrip s) ++ limitClause n)

/-- C3 counterexample: on `select 1;;` (which lacks the substring `limit`)
the code removes BOTH trailing semicolons — `rstrip(';')` strips every
trailing semicolon — so the result minus the clause is `select 1`, which is
not the trimmed original with at most one trailing semicolon removed. -/
theorem claim_C3_counterexample : ¬ ensureLimitClaim ("select 1;;".toList) 50 := by
  unfold ensureLimitClaim
  decide

/-- C3 amended: with `limit` present the string is returned unchanged;
otherwise exactly one LIMIT clause is appended and the result minus the
clause is the original with trailing whitespace and then ALL trailing
semicolons removed (the carried part still contains no `limit`, and the
result does). -/
theorem claim_C3_limit (s : List Char) (n : Nat) :
    (hasSub ("limit".toList) (toLowerList s) = true → ensure_limit s n = s) ∧
    (hasSub ("limit".toList) (toLowerList s) = false →
      ensure_limit s n = pyRstripSemi (pyRstrip s) ++ limitClause n ∧
      hasSub ("limit".toList) (toLowerList (pyRstripSemi (pyRstrip s))) = false ∧
      hasSub ("limit".toList) (toLowerList (ensure_limit s n)) = true) := by
  constructor
  · intro h
    rw [ensure_limit, if_pos h]
  · intro h
    have heq : ensure_limit s n = pyRstripSemi (pyRstrip s) ++ limitClause n := by
      rw [ensure_limit, if_neg (by rw [h]; simp)]
    refine ⟨heq, ?_, ?_⟩
    · apply Bool.eq_false_iff.mpr
      intro hcon
      obtain ⟨W, hsW, _, _⟩ := dropTrail_decomp isSpaceChar s
      obtain ⟨S, hrS, _, _⟩ := dropTrail_decomp (fun c => c == ';') (pyRstrip s)
      have e1 : dropTrailWhile isSpaceChar s = pyRstrip s := rfl
      have e2 : dropTrailWhile (fun c => c == ';') (pyRstrip s) =
          pyRstripSemi (pyRstrip s) := rfl
      rw [e1] at hsW
      rw [e2] at hrS
      have hs : s = pyRstripSemi (pyRstrip s) ++ (S ++ W) := by
        conv_lhs => rw [hsW]
        conv_lhs => rw [hrS]
        rw [List.append_assoc]
      have : hasSub ("limit".toList) (toLowerList s) = true := by
        conv_lhs => rw [hs]
        rw [toLowerList_append]
        exact hasSub_extend_right _ _ _ hcon
      rw [this] at h
      exact Bool.noConfusion h
    · rw [heq, toLowerList_append]
      exact hasSub_extend_left _ _ _ (hasSub_limit_clause n)

/-- C3 witness: the amended equation evaluated on the counterexample input. -/
theorem claim_C3_witness :
    ensure_limit ("select 1;;".toList) 50 =
      pyRstripSemi (pyRstrip ("select 1;;".toList)) ++ limitClause 50 :=
  ((claim_C3_limit ("select 1;;".toList) 50).2 (by decide)).1

/-- C4: the gate the code implements (row cap, then quoting, then read-only
check) is extensionally equal, on every candidate SQL string, SchemaMap and
cap, to the composition in the fixed order the specification states
(quoting, then row cap, then read-only check): quoting never changes whether
the lowered string contains `limit`, and appending the clause to the
stripped string commutes with every quoting pass. -/
theorem claim_C4_gate_order (sql : List Char) (tables : SchemaMap)
    (maxRows : Nat) :
    gate_code sql tables maxRows = gate_spec sql tables maxRows := by
  simp only [gate_code, gate_spec]
  rw [ensure_quote_tables_comm]

/-- C5: on the spec's concrete example — default cap 50, schema
`{Account: [Id, Name], Case: [Id, Status]}` and the generated statement
`SELECT Status, COUNT(*) FROM Case GROUP BY Status` — the gate produces
exactly `SELECT Status, COUNT(*) FROM "Case" GROUP BY Status LIMIT 50`. -/
theorem claim_C5_concrete_gate :
    gate_code ("SELECT Status, COUNT(*) FROM Case GROUP BY Status".toList)
      [("Account".toList, ["Id".toList, "Name".toList]),
       ("Case".toList, ["Id".toList, "Status".toList])] 50 =
    .ok ("SELECT Status, COUNT(*) FROM \x22Case\x22 GROUP BY Status LIMIT 50".toList) :=
  rfl

/-- C6: for a schema containing a table literally named `Order` (or `Case`),
the quoting step (i) only inserts double-quote characters — every other
character, in particular every already-quoted occurrence, is carried over
unchanged, (ii) leaves no unquoted whole-word occurrence of the identifier in
its output (every such occurrence was rewritten to its double-quoted form),
and (iii) returns the string verbatim when it contains no unquoted
whole-word occurrence (no double-quoting of already-quoted occurrences).
`hasOcc` renders the regex conditions: literal case-sensitive text, word
boundaries, and the negative lookbehind/lookahead for an adjacent quote. -/
theorem claim_C6_quoting (t : List Char) (cols : List (List Char))
    (ht : t = "Order".toList ∨ t = "Case".toList) (s : List Char) :
    (quote_reserved_tables s [(t, cols)]).filter (fun c => c != '"') =
      s.filter (fun c => c != '"') ∧
    hasOcc t none (quote_reserved_tables s [(t, cols)]) = false ∧
    (hasOcc t none s = false → quote_reserved_tables s [(t, cols)] = s) := by
  have hlt : toLowerList t = "case".toList ∨ toLowerList t = "order".toList := by
    rcases ht with h | h <;> subst h
    · right; decide
    · left; decide
  obtain ⟨hw, hq, hne, _, _⟩ := reserved_facts t hlt
  have hres : reservedNames.contains (toLowerList t) = true := by
    rcases hlt with h | h <;> rw [h] <;> decide
  have hunfold : quote_reserved_tables s [(t, cols)] = quoteScan t none s := by
    rw [quote_tables_cons, if_pos hres, quote_tables_nil]
  rw [hunfold]
  exact ⟨quoteScan_filter t hq s.length s none (le_refl _),
    hasOcc_quoteScan_self t hw hq hne s.length s none (le_refl _),
    fun h => quoteScan_id t s none h⟩

/-- C6 witness: after quoting, `SELECT * FROM Order` carries no unquoted
whole-word `Order` any more. -/
theorem claim_C6_witness :
    hasOcc ("Order".toList) none
      (quote_reserved_tables ("SELECT * FROM Order".toList)
        [("Order".toList, [])]) = false :=
  (claim_C6_quoting ("Order".toList) [] (Or.inl rfl)
    ("SELECT * FROM Order".toList)).2.1

/-- C7 counterexample: the claim requires the upstream failure to carry the
offending content for the absent/empty-sql branch too, but that branch
raises the fixed detail `Gemini did not return SQL.` with no content from
the reply: a valid-JSON reply whose only content is `xyzzy` (a reasoning
field, no `sql`) yields a 502 whose detail is the constant message and does
not contain `xyzzy`, while the non-JSON branch does embed the raw text. -/
theorem claim_C7_counterexample :
    answer
      (fun (db : Unit) (_ : List Char) =>
        (SqliteOutcome.ok ([] : List (List Char)) ([] : List (List Nat)), db))
      () (.valid none (some ("xyzzy".toList))) 50 [] =
      (.error ⟨502, noSqlMsg⟩, ()) ∧
    hasSub ("xyzzy".toList) noSqlMsg = false :=
  ⟨rfl, by decide⟩

/-- C7 amended: a generator reply that is not valid JSON, or whose `sql`
field is absent or empty, makes `answer` signal a classified 502
bad-gateway failure and the database driver is never invoked (the returned
state equals the input state for every driver); the detail carries the
offending content only in the non-JSON branch, while the absent/empty-sql
branch raises the fixed message `Gemini did not return SQL.` without it. -/
theorem claim_C7_upstream {V D : Type}
    (exec : D → List Char → SqliteOutcome V × D) (db : D) (reply : GenReply)
    (maxRows : Nat) (tables : SchemaMap) :
    (∀ raw, reply = .invalid raw →
      answer exec db reply maxRows tables =
        (.error ⟨502, nonJsonMsg raw⟩, db)) ∧
    (∀ r, (reply = .valid none r ∨ reply = .valid (some []) r) →
      answer exec db reply maxRows tables =
        (.error ⟨502, noSqlMsg⟩, db)) := by
  constructor
  · intro raw hr
    cases hr
    rfl
  · intro r hr
    rcases hr with hr | hr <;> (cases hr; rfl)

/-- C7 witness: a non-JSON reply yields the 502 embedding the raw text, and
a missing-sql reply yields the fixed 502, database untouched in both. -/
theorem claim_C7_witness :
    answer
      (fun (db : Unit) (_ : List Char) =>
        (SqliteOutcome.ok ([] : List (List Char)) ([] : List (List Nat)), db))
      () (.invalid ("not json".toList)) 50 [] =
      (.error ⟨502, nonJsonMsg ("not json".toList)⟩, ()) ∧
    answer
      (fun (db : Unit) (_ : List Char) =>
        (SqliteOutcome.ok ([] : List (List Char)) ([] : List (List Nat)), db))
      () (.valid none none) 50 [] = (.error ⟨502, noSqlMsg⟩, ()) :=
  ⟨(claim_C7_upstream _ () (.invalid ("not json".toList)) 50 []).1
      ("not json".toList) rfl,
    (claim_C7_upstream _ () (.valid none none) 50 []).2 none (Or.inl rfl)⟩

/-- C8 counterexample: when a result has two columns with the same name —
legal in SQLite, e.g. `SELECT 1 AS x, 2 AS x` — `dict(zip(columns, row))`
collapses them and the retrieved value for the first column is the second
column's value, so the produced row mapping does not give every result
column that row's value for that column. -/
theorem claim_C8_counterexample :
    ¬ (∀ (exec : Unit → List Char → SqliteOutcome Nat × Unit) (db : Unit)
        (sql : List Char) (cols : List (List Char)) (rows : List (List Nat))
        (db' : Unit) (dicts : List (List (List Char × Nat))),
        exec db sql = (.ok cols rows, db') →
        run_sql exec db sql = (.ok (cols, dicts), db') →
        ∀ (j : Nat) (hj : j < rows.length) (hd : j < dicts.length)
          (i : Nat) (hi : i < cols.length)
          (hri : i < (rows.get ⟨j, hj⟩).length),
          pyGet (dicts.get ⟨j, hd⟩) (cols.get ⟨i, hi⟩) =
            some ((rows.get ⟨j, hj⟩).get ⟨i, hri⟩)) := by
  intro hclaim
  have h := hclaim
    (fun db _ => (.ok ["x".toList, "x".toList] [[1, 2]], db)) ()
    ("q".toList) ["x".toList, "x".toList] [[1, 2]] ()
    [[("x".toList, 2)]] rfl rfl
    0 (by decide) (by decide) 0 (by decide) (by decide)
  exact absurd h (by decide)

/-- C8 amended: for every successful execution whose result column names are
pairwise distinct, the Executor returns the column names in positional order
and each row as a mapping with exactly one entry per column, in column
order, whose lookup at each column name is that row's value for that
column.  (With duplicate column names Python's dict collapses entries; see
the counterexample.) -/
theorem claim_C8_executor_rows {V D : Type}
    (exec : D → List Char → SqliteOutcome V × D) (db db' : D)
    (sql : List Char) (cols : List (List Char)) (rows : List (List V))
    (hexec : exec db sql = (.ok cols rows, db'))
    (hnd : cols.Nodup) :
    run_sql exec db sql =
      (.ok (cols, rows.map (fun row => pyDict (cols.zip row))), db') ∧
    ∀ row ∈ rows, row.length = cols.length →
      (pyDict (cols.zip row)).map Prod.fst = cols ∧
      (pyDict (cols.zip row)).length = cols.length ∧
      ∀ (i : Nat) (hi : i < cols.length) (hi2 : i < row.length),
        pyGet (pyDict (cols.zip row)) (cols.get ⟨i, hi⟩) =
          some (row.get ⟨i, hi2⟩) := by
  constructor
  · rw [run_sql, hexec]
  · intro row _ hlen
    have hzip : (cols.zip row).map Prod.fst = cols :=
      List.map_fst_zip cols row (by omega)
    have hdict : pyDict (cols.zip row) = cols.zip row :=
      pyDict_nodup _ (by rw [hzip]; exact hnd)
    refine ⟨by rw [hdict, hzip], ?_, ?_⟩
    · rw [hdict]
      have := congrArg List.length hzip
      simpa using this
    · intro i hi hi2
      rw [hdict]
      exact pyGet_zip cols row hnd hlen i hi hi2

/-- C8 witness: distinct column names, one row. -/
theorem claim_C8_witness :
    run_sql
      (fun (db : Unit) (_ : List Char) =>
        (SqliteOutcome.ok ["a".toList, "b".toList] [[1, 2]], db))
      () ("q".toList) =
      (.ok (["a".toList, "b".toList],
        ([[1, 2]] : List (List Nat)).map
          (fun row => pyDict ((["a".toList, "b".toList]).zip row))), ()) :=
  (claim_C8_executor_rows _ () () ("q".toList) ["a".toList, "b".toList]
    [[1, 2]] rfl (by decide)).1

/-- C9: a statement the database driver rejects is caught and re-signalled
as a classified 400 bad-request failure whose detail is the driver's error
text verbatim; `run_sql` is a total function returning this value, so the
failure never escapes as an unclassified crash. -/
theorem claim_C9_exec_error {V D : Type}
    (exec : D → List Char → SqliteOutcome V × D) (db db' : D)
    (sql msg : List Char) (hexec : exec db sql = (.err msg, db')) :
    run_sql exec db sql = (.error ⟨400, msg⟩, db') := by
  rw [run_sql, hexec]

/-- C9 witness: a missing-table error surfaces verbatim with status 400. -/
theorem claim_C9_witness :
    run_sql
      (fun (db : Unit) (_ : List Char) =>
        ((SqliteOutcome.err ("no such table: Foo".toList) :
          SqliteOutcome Nat), db))
      () ("SELECT * FROM Foo LIMIT 50".toList) =
      (.error ⟨400, "no such table: Foo".toList⟩, ()) :=
  claim_C9_exec_error _ () () _ _ rfl

/-- C10: the sanitization pipeline is idempotent — applying
`ensure_limit (·, n)` followed by `quote_reserved_tables (·, m)` to a string
already produced by that composition returns it unchanged: the appended
clause makes the limit check a no-op on the second pass, and the quoting
scans find no further unquoted whole-word occurrence. -/
theorem claim_C10_idempotent (s : List Char) (tables : SchemaMap) (n : Nat) :
    quote_reserved_tables
      (ensure_limit (quote_reserved_tables (ensure_limit s n) tables) n)
      tables =
    quote_reserved_tables (ensure_limit s n) tables :=
  pipeline_idem tables s n

/-- C10 witness: the pipeline evaluated twice on a concrete statement. -/
theorem claim_C10_witness :
    quote_reserved_tables
      (ensure_limit
        (quote_reserved_tables (ensure_limit ("SELECT * FROM Case;".toList) 50)
          [("Case".toList, []), ("Order".toList, [])]) 50)
      [("Case".toList, []), ("Order".toList, [])] =
    quote_reserved_tables (ensure_limit ("SELECT * FROM Case;".toList) 50)
      [("Case".toList, []), ("Order".toList, [])] :=
  claim_C10_idempotent ("SELECT * FROM Case;".toList)
    [("Case".toList, []), ("Order".toList, [])] 50

/-- C4 witness: both orders agree on a concrete statement with a reserved
table, a trailing semicolon and trailing whitespace. -/
theorem claim_C4_witness :
    gate_code ("SELECT * FROM Order; ".toList) [("Order".toList, [])] 50 =
      gate_spec ("SELECT * FROM Order; ".toList) [("Order".toList, [])] 50 :=
  claim_C4_gate_order ("SELECT * FROM Order; ".toList) [("Order".toList, [])] 50

end AgentApi
